import Mathlib

/-!
Verification of the ingestion orchestrator of the Outlook plug-in front-end.

The definitions below are a shallow embedding of
`src/frontend/src/taskpane/ingest/runner.ts` (helpers `uniq`, `chunk` and the
orchestrator `run_ingestion`), of the types in
`src/frontend/src/taskpane/ingest/types.ts`, and of the cancellation
classification in the catch handler of `start_indexing` in
`src/frontend/src/taskpane/components/indexmanager.tsx`.

Impure aspects are modelled explicitly:
  * the remote source (`get_messages_page`) is an environment assigning to each
    folder id its list of message ids, paginated in pages of `page_size`;
  * the pause/cancel gate (`isPauseRequested` / `waitForDecision` /
    `isCancelRequested`) is an oracle indexed by the number of gate
    check-points passed so far;
  * UI callbacks (`onPhase`, `onTotal`, `onFetchDone`, `onIngestDone`) and the
    remote calls (`get_messages_page`, `ingest_messages`) are recorded as an
    event trace;
  * thrown `Error`s are `Except.error` carrying the error message string
    (the code has no structured error type: it throws `new Error(...)`).
-/

namespace Outlook

/-- From `types.ts`: `export type IngestMode = "FOLDERS" | "EMAILS"`. -/
inductive IngestMode where
  | FOLDERS
  | EMAILS
deriving DecidableEq, Repr

/-- From `types.ts`: `export type Phase = "FETCHING" | "STORING" | "INDEXING" | "DONE"`. -/
inductive Phase where
  | FETCHING
  | STORING
  | INDEXING
  | DONE
deriving DecidableEq, Repr

/-- From `types.ts`: `export type Folder = { id; displayName; totalItemCount?: number }`.
`totalItemCount` is optional, hence an `Option Nat`. -/
structure Folder where
  id : String
  displayName : String
  totalItemCount : Option Nat
deriving DecidableEq, Repr

/-- The decision returned by `waitForDecision()`: `"continue" | "cancel"`. -/
inductive Decision where
  | cont
  | cancel
deriving DecidableEq, Repr

/-- One reading of the impure gate: the values `isPauseRequested()`,
`waitForDecision()` and `isCancelRequested()` would yield at a check-point. -/
structure GateStep where
  pause : Bool
  decision : Decision
  cancel : Bool
deriving DecidableEq, Repr

/-- The gate oracle: the readings at the 0th, 1st, ... gate check-point. -/
def Gate := Nat → GateStep

/-- The remote source: each folder id owns a list of message ids, in the order
the remote pagination yields them. -/
structure Env where
  folderMsgs : String → List String

/-- Observable events of one call of `run_ingestion`: callback invocations and
remote calls, in order. `gatePass k` records that the `k`-th gate check-point
was passed without aborting. -/
inductive Event where
  | phase (p : Phase)
  | total (t : Option Nat)
  | fetchDone (n : Nat)
  | ingestDone (n : Nat)
  | pageFetch (folder_id : String)
  | commit (folder_id : String) (ids : List String)
  | gatePass (k : Nat)
deriving DecidableEq, Repr

/-- Insertion into a JavaScript `Set`, viewed as a first-insertion-order list:
a present element is skipped, a new one appended. -/
def uniqStep (acc : List String) (x : String) : List String :=
  if acc.contains x then acc else acc ++ [x]

/-- From `runner.ts` lines 4-6:
`function uniq<T>(arr) { return Array.from(new Set(arr)); }` —
a JavaScript `Set` preserves first-insertion order. -/
def uniq (arr : List String) : List String :=
  arr.foldl uniqStep []

/-- From `runner.ts` lines 8-12:
`for (let i = 0; i < arr.length; i += size) out.push(arr.slice(i, i + size))`,
run with bounded fuel (one unit per loop iteration) to capture termination:
`none` means the loop did not finish within the given fuel. -/
def chunkFuel {α : Type} (size : Nat) : Nat → List α → Option (List (List α))
  | _, [] => some []
  | 0, _ :: _ => none
  | fuel + 1, x :: xs =>
    match chunkFuel size fuel ((x :: xs).drop size) with
    | none => none
    | some rest => some ((x :: xs).take size :: rest)

/-- From `runner.ts` lines 8-12, the total version: the loop makes at most
`l.length` iterations when `size ≥ 1`, so `l.length` fuel is always enough;
split `l` into consecutive slices of `size` elements. -/
def chunk {α : Type} (size : Nat) (l : List α) : List (List α) :=
  (chunkFuel size l.length l).getD []

/-- The `RunIngestArgs` record of `runner.ts` (the pure data; the callbacks and gate
closures are modelled by the event trace and the gate oracle).
`folder_limit` is an `Int` because the TypeScript `number` may be ≤ 0 and the
code clamps it with `Math.max(1, ...)`. -/
structure RunIngestArgs where
  ingest_mode : IngestMode
  email_folder_id : String
  selected_email_ids : List String
  folders : List Folder
  selected_folder_ids : List String
  folder_limit : Int
  batch_size : Option Nat
  page_size : Option Nat
deriving Repr

/-- The `RunIngestResult` record of `runner.ts`. -/
structure RunIngestResult where
  run_id : String
  run_label : String
  message_ids : List String
deriving DecidableEq, Repr

/-- The error message of `throw new Error("CANCELLED_BY_USER")`. -/
def cancelledMsg : String := "CANCELLED_BY_USER"

/-- The error message of `throw new Error("No emails selected.")`. -/
def noItemsMsg : String := "No emails selected."

/-- Whether the `k`-th gate check-point aborts the run: the code throws when a
requested pause resolves to `cancel`, or when the hard cancel flag is set. -/
def gateAborts (gate : Gate) (k : Nat) : Bool :=
  ((gate k).pause && decide ((gate k).decision = Decision.cancel)) || (gate k).cancel

/-- One gate check-point (`runner.ts` lines 100-105 and 147-152):
```
if (args.isPauseRequested()) {
  const decision = await args.waitForDecision();
  if (decision === "cancel") throw new Error("CANCELLED_BY_USER");
}
if (args.isCancelRequested()) throw new Error("CANCELLED_BY_USER");
```
Passing yields the next check-point index and a `gatePass` event. -/
def gateStepRun (gate : Gate) (k : Nat) : Except String (Nat × List Event) :=
  let g := gate k
  if g.pause && decide (g.decision = Decision.cancel) then .error cancelledMsg
  else if g.cancel then .error cancelledMsg
  else .ok (k + 1, [Event.gatePass k])

/-- The inner `while (collected < limit)` pagination loop of `run_ingestion`
for one folder (`runner.ts` lines 96-126). `pages` is the remaining pages of
the folder (the continuation of `next_link`); `collected` the ids taken from
this folder so far, `done` the global collected counter, `k` the gate
check-point counter. Returns the emitted events and, unless the gate aborted,
the new `done`, the new `k` and the ids pushed onto `all_ids`. -/
def collectPages (gate : Gate) (limit : Nat) (fid : String) :
    List (List String) → Nat → Nat → Nat →
    List Event × Except String (Nat × Nat × List String)
  | pages, collected, done, k =>
    if limit ≤ collected then ([], .ok (done, k, []))
    else
      match gateStepRun gate k with
      | .error e => ([], .error e)
      | .ok (k', gev) =>
        match pages with
        | [] => (gev ++ [Event.pageFetch fid], .ok (done, k', []))
        | p :: rest =>
          if p.isEmpty then (gev ++ [Event.pageFetch fid], .ok (done, k', []))
          else
            let taken := p.take (limit - collected)
            let t := taken.length
            let fev := (List.range t).map (fun i => Event.fetchDone (done + i + 1))
            let evs := gev ++ [Event.pageFetch fid] ++ fev
            if rest.isEmpty then (evs, .ok (done + t, k', taken))
            else
              let r := collectPages gate limit fid rest (collected + t) (done + t) k'
              (evs ++ r.1,
               match r.2 with
               | .error e => .error e
               | .ok (d, kk, ids) => .ok (d, kk, taken ++ ids))

/-- The outer `for (const f of chosenFolders)` loop of `run_ingestion`
(`runner.ts` lines 93-127): each folder starts with `collected = 0` while the
global `done` counter and the gate counter carry over. Returns the emitted
events and, unless the gate aborted, the final `done`, the final gate counter
and the accumulated `all_ids`. -/
def collectFolders (env : Env) (gate : Gate) (limit pageSize : Nat) :
    List Folder → Nat → Nat → List Event × Except String (Nat × Nat × List String)
  | [], done, k => ([], .ok (done, k, []))
  | f :: fs, done, k =>
    let r := collectPages gate limit f.id (chunk pageSize (env.folderMsgs f.id)) 0 done k
    match r.2 with
    | .error e => (r.1, .error e)
    | .ok (done', k', ids) =>
      let r₂ := collectFolders env gate limit pageSize fs done' k'
      (r.1 ++ r₂.1,
       match r₂.2 with
       | .error e => .error e
       | .ok (d, kk, ids₂) => .ok (d, kk, ids ++ ids₂))

/-- The batch loop of `run_ingestion` (`runner.ts` lines 144-163): for each
batch, a gate check-point, then the `ingest_messages` call (a `commit` event),
then the stored counter advances by the batch size and `onIngestDone` fires. -/
def ingestBatches (gate : Gate) (fid : String) :
    List (List String) → Nat → Nat → List Event × Except String Nat
  | [], _, k => ([], .ok k)
  | b :: bs, ingested, k =>
    match gateStepRun gate k with
    | .error e => ([], .error e)
    | .ok (k', gev) =>
      let r := ingestBatches gate fid bs (ingested + b.length) k'
      (gev ++ [Event.commit fid b, Event.ingestDone (ingested + b.length)] ++ r.1, r.2)

/-- Model of `f.totalItemCount || limit`, `runner.ts` line 89: JavaScript `||` falls
back when the count is `undefined` or `0`. -/
def totalOrLimit (t : Option Nat) (limit : Nat) : Nat :=
  match t with
  | none => limit
  | some n => if n = 0 then limit else n

/-- The folders selected for the run (`runner.ts` lines 84-85):
`args.folders.filter((f) => selected.has(f.id))`. -/
def chosenFolders (args : RunIngestArgs) : List Folder :=
  args.folders.filter (fun f => args.selected_folder_ids.contains f.id)

/-- Model of `const limit = Math.max(1, args.folder_limit)`, `runner.ts` line 86. -/
def effLimit (args : RunIngestArgs) : Nat :=
  (max 1 args.folder_limit).toNat

/-- Model of `const approxTotal = chosenFolders.reduce((sum, f) => sum + Math.min(limit,
f.totalItemCount || limit), 0)` (`runner.ts` line 89). -/
def approxTotal (args : RunIngestArgs) : Nat :=
  (chosenFolders args).foldl
    (fun s f => s + min (effLimit args) (totalOrLimit f.totalItemCount (effLimit args))) 0

/-- The identifier-building part of `run_ingestion` (`runner.ts` lines 79-129):
`onPhase("FETCHING")`, then either the EMAILS pass-through (ids, `onTotal`,
`onFetchDone`) or the FOLDERS pagination (`onTotal(approxTotal || null)`, the
folder loop, then `uniq`). Yields the events so far and, unless the gate
aborted, the gate counter and the built `message_ids`. -/
def collectStage (env : Env) (gate : Gate) (args : RunIngestArgs) :
    List Event × Except String (Nat × List String) :=
  let PAGE_SIZE := args.page_size.getD 25
  let ev0 := [Event.phase Phase.FETCHING]
  match args.ingest_mode with
  | .EMAILS =>
    let ids := args.selected_email_ids
    (ev0 ++ [Event.total (some ids.length), Event.fetchDone ids.length], .ok (0, ids))
  | .FOLDERS =>
    let a := approxTotal args
    let ev1 := ev0 ++ [Event.total (if a = 0 then none else some a)]
    let r := collectFolders env gate (effLimit args) PAGE_SIZE (chosenFolders args) 0 0
    (ev1 ++ r.1,
     match r.2 with
     | .error e => .error e
     | .ok (_, k, all_ids) => .ok (k, uniq all_ids))

/-- The `folder_id` argument of the `ingest_messages` calls
(`runner.ts` lines 139-142): `args.email_folder_id || "selected"` in EMAILS
mode (JavaScript `||`: the empty string falls back), `"multi"` in FOLDERS
mode. -/
def folderIdToSend (args : RunIngestArgs) : String :=
  match args.ingest_mode with
  | .EMAILS => if args.email_folder_id = "" then "selected" else args.email_folder_id
  | .FOLDERS => "multi"

/-- From `runner.ts` lines 71-171, `run_ingestion`. `run_id` and `run_label` stand
for the results of the impure `make_id` / `now_iso_local`; `env` is the remote
source and `gate` the pause/cancel oracle. Returns the event trace and either
the result or the thrown error's message. The `sleep(MIN_PHASE_MS)` calls have
no observable effect in this model and are elided. -/
def run_ingestion (env : Env) (gate : Gate) (run_id run_label : String)
    (args : RunIngestArgs) : List Event × Except String RunIngestResult :=
  let BATCH_SIZE := args.batch_size.getD 5
  let collected := collectStage env gate args
  match collected.2 with
  | .error e => (collected.1, .error e)
  | .ok (k, message_ids) =>
    if message_ids.isEmpty then (collected.1, .error noItemsMsg)
    else
      let evs := collected.1 ++ [Event.phase Phase.STORING]
      let batches := chunk BATCH_SIZE message_ids
      let r := ingestBatches gate (folderIdToSend args) batches 0 k
      match r.2 with
      | .error e => (evs ++ r.1, .error e)
      | .ok _ =>
        (evs ++ r.1 ++ [Event.phase Phase.INDEXING, Event.phase Phase.DONE],
         .ok ⟨run_id, run_label, message_ids⟩)

/-! ### Trace projections -/

/-- The successive values passed to `onFetchDone` (the collected counter). -/
def fetchVals (evs : List Event) : List Nat :=
  evs.filterMap (fun e => match e with | .fetchDone n => some n | _ => none)

/-- The successive values passed to `onIngestDone` (the stored counter). -/
def ingestVals (evs : List Event) : List Nat :=
  evs.filterMap (fun e => match e with | .ingestDone n => some n | _ => none)

/-- The successive values passed to `onTotal`. -/
def totalVals (evs : List Event) : List (Option Nat) :=
  evs.filterMap (fun e => match e with | .total t => some t | _ => none)

/-- The successive phases passed to `onPhase`. -/
def phaseVals (evs : List Event) : List Phase :=
  evs.filterMap (fun e => match e with | .phase p => some p | _ => none)

/-- The `ingest_messages` calls (batch commits), in order. -/
def commitVals (evs : List Event) : List (List String) :=
  evs.filterMap (fun e => match e with | .commit _ b => some b | _ => none)

/-- Whether an event is a remote page fetch or a store/index write. -/
def isRemoteCall : Event → Bool
  | .pageFetch _ => true
  | .commit _ _ => true
  | _ => false

/-- The catch handler of `start_indexing`
(`src/frontend/src/taskpane/components/indexmanager.tsx` lines 362-375):
`if (msg === "CANCELLED_BY_USER" || cancel_requested_ref.current)` — `true`
means the error is treated as a user cancellation (terminal `CANCELLED` step),
`false` means it is surfaced as an ordinary error. -/
def classify_as_cancellation (msg : String) (cancel_requested : Bool) : Bool :=
  msg = cancelledMsg || cancel_requested

/-! ### Lemmas about `chunk` and `chunkFuel` -/

theorem chunkFuel_congr {α : Type} (size : Nat) (hs : size ≠ 0) :
    ∀ (f₁ f₂ : Nat) (l : List α), l.length ≤ f₁ → l.length ≤ f₂ →
      chunkFuel size f₁ l = chunkFuel size f₂ l := by
  intro f₁
  induction f₁ with
  | zero =>
    intro f₂ l h1 h2
    cases l with
    | nil => cases f₂ <;> rfl
    | cons x xs => simp at h1
  | succ n ih =>
    intro f₂ l h1 h2
    cases l with
    | nil => cases f₂ <;> rfl
    | cons x xs =>
      cases f₂ with
      | zero => simp at h2
      | succ m =>
        have h1' : xs.length + 1 ≤ n + 1 := by simpa using h1
        have h2' : xs.length + 1 ≤ m + 1 := by simpa using h2
        have hd1 : ((x :: xs).drop size).length ≤ n := by
          simp only [List.length_drop, List.length_cons]
          omega
        have hd2 : ((x :: xs).drop size).length ≤ m := by
          simp only [List.length_drop, List.length_cons]
          omega
        rw [chunkFuel, chunkFuel, ih m ((x :: xs).drop size) hd1 hd2]

theorem chunkFuel_some {α : Type} (size : Nat) (hs : size ≠ 0) :
    ∀ (fuel : Nat) (l : List α), l.length ≤ fuel →
      ∃ out, chunkFuel size fuel l = some out := by
  intro fuel
  induction fuel with
  | zero =>
    intro l h
    cases l with
    | nil => exact ⟨[], rfl⟩
    | cons x xs => simp at h
  | succ n ih =>
    intro l hl
    cases l with
    | nil => exact ⟨[], rfl⟩
    | cons x xs =>
      have hl' : xs.length + 1 ≤ n + 1 := by simpa using hl
      have hd : ((x :: xs).drop size).length ≤ n := by
        simp only [List.length_drop, List.length_cons]
        omega
      obtain ⟨out, hout⟩ := ih ((x :: xs).drop size) hd
      exact ⟨(x :: xs).take size :: out, by rw [chunkFuel, hout]⟩

theorem chunk_nil {α : Type} (size : Nat) : chunk size ([] : List α) = [] := rfl

theorem chunk_of_ne_nil {α : Type} {size : Nat} {l : List α} (hl : l ≠ [])
    (hs : size ≠ 0) : chunk size l = l.take size :: chunk size (l.drop size) := by
  unfold chunk
  cases l with
  | nil => exact absurd rfl hl
  | cons x xs =>
    have hd : ((x :: xs).drop size).length ≤ xs.length := by
      simp only [List.length_drop, List.length_cons]
      omega
    rw [List.length_cons, chunkFuel,
      chunkFuel_congr size hs xs.length ((x :: xs).drop size).length
        ((x :: xs).drop size) hd (le_refl _)]
    obtain ⟨out, hout⟩ := chunkFuel_some size hs ((x :: xs).drop size).length
      ((x :: xs).drop size) (le_refl _)
    rw [hout]
    rfl

theorem chunk_join {α : Type} (size : Nat) (hs : 1 ≤ size) (l : List α) :
    (chunk size l).flatten = l := by
  by_cases hl : l = []
  · subst hl; simp [chunk_nil]
  · rw [chunk_of_ne_nil hl (by omega)]
    have ih := chunk_join size hs (l.drop size)
    simp [ih]
termination_by l.length
decreasing_by
  have h3 : 0 < l.length := List.length_pos.mpr hl
  simp only [List.length_drop]
  omega

theorem chunk_mem {α : Type} (size : Nat) (hs : 1 ≤ size) (l : List α) :
    ∀ b ∈ chunk size l, b ≠ [] ∧ b.length ≤ size := by
  intro b hb
  by_cases hl : l = []
  · subst hl; simp [chunk_nil] at hb
  · rw [chunk_of_ne_nil hl (by omega)] at hb
    rcases List.mem_cons.mp hb with rfl | hb
    · refine ⟨?_, ?_⟩
      · have h3 : 0 < l.length := List.length_pos.mpr hl
        intro hcon
        have hlen : (l.take size).length = 0 := by rw [hcon]; rfl
        rw [List.length_take] at hlen
        omega
      · rw [List.length_take]
        exact Nat.min_le_left size l.length
    · exact chunk_mem size hs (l.drop size) b hb
termination_by l.length
decreasing_by
  have h3 : 0 < l.length := List.length_pos.mpr hl
  simp only [List.length_drop]
  omega

theorem chunkFuel_zero_none {α : Type} (x : α) (xs : List α) (fuel : Nat) :
    chunkFuel 0 fuel (x :: xs) = none := by
  induction fuel with
  | zero => rfl
  | succ n ih => simp [chunkFuel, ih]

theorem chunkFuel_eq_chunk {α : Type} (size : Nat) (hs : 1 ≤ size) (fuel : Nat) :
    ∀ l : List α, l.length ≤ fuel → chunkFuel size fuel l = some (chunk size l) := by
  induction fuel with
  | zero =>
    intro l hf
    have : l = [] := by
      cases l with
      | nil => rfl
      | cons x xs => simp at hf
    subst this
    simp [chunkFuel, chunk_nil]
  | succ n ih =>
    intro l hf
    cases l with
    | nil => simp [chunkFuel, chunk_nil]
    | cons x xs =>
      have hf' : xs.length + 1 ≤ n + 1 := by simpa using hf
      have hd : ((x :: xs).drop size).length ≤ n := by
        simp only [List.length_drop, List.length_cons]
        omega
      rw [chunkFuel, ih ((x :: xs).drop size) hd,
        chunk_of_ne_nil (l := x :: xs) (List.cons_ne_nil x xs) (by omega)]

theorem chunk_length_le {α : Type} (size : Nat) (hs : 1 ≤ size) (l : List α) :
    ∀ b ∈ chunk size l, b.length ≤ size :=
  fun b hb => (chunk_mem size hs l b hb).2

/-! ### Lemmas about `uniq` -/

theorem uniqStep_nodup (acc : List String) (x : String) (h : acc.Nodup) :
    (uniqStep acc x).Nodup := by
  unfold uniqStep
  by_cases hc : acc.contains x
  · rwa [if_pos hc]
  · rw [if_neg hc]
    have hx : x ∉ acc := by simpa using hc
    simp [List.nodup_append, h, hx]

theorem foldl_uniqStep_nodup (l : List String) :
    ∀ acc : List String, acc.Nodup → (l.foldl uniqStep acc).Nodup := by
  induction l with
  | nil => exact fun acc h => h
  | cons x xs ih => exact fun acc h => ih _ (uniqStep_nodup acc x h)

theorem uniq_nodup (l : List String) : (uniq l).Nodup :=
  foldl_uniqStep_nodup l [] List.nodup_nil

theorem uniqStep_length (acc : List String) (x : String) :
    (uniqStep acc x).length ≤ acc.length + 1 := by
  unfold uniqStep
  by_cases hc : acc.contains x
  · rw [if_pos hc]; omega
  · rw [if_neg hc]; simp

theorem foldl_uniqStep_length (l : List String) :
    ∀ acc : List String, (l.foldl uniqStep acc).length ≤ acc.length + l.length := by
  induction l with
  | nil => intro acc; simp
  | cons x xs ih =>
    intro acc
    have h1 := ih (uniqStep acc x)
    have h2 := uniqStep_length acc x
    simp only [List.foldl_cons, List.length_cons]
    omega

theorem uniq_length_le (l : List String) : (uniq l).length ≤ l.length := by
  simpa using foldl_uniqStep_length l []

theorem mem_uniqStep (acc : List String) (x y : String) :
    y ∈ uniqStep acc x ↔ y ∈ acc ∨ y = x := by
  unfold uniqStep
  by_cases hc : acc.contains x
  · rw [if_pos hc]
    have hx : x ∈ acc := by simpa using hc
    constructor
    · exact Or.inl
    · rintro (h | rfl)
      · exact h
      · exact hx
  · rw [if_neg hc]; simp

theorem foldl_uniqStep_mem (l : List String) :
    ∀ (acc : List String) (y : String),
      y ∈ l.foldl uniqStep acc ↔ y ∈ acc ∨ y ∈ l := by
  induction l with
  | nil => intro acc y; simp
  | cons x xs ih =>
    intro acc y
    rw [List.foldl_cons, ih, mem_uniqStep]
    simp only [List.mem_cons]
    tauto

theorem mem_uniq (l : List String) (y : String) : y ∈ uniq l ↔ y ∈ l := by
  simpa using foldl_uniqStep_mem l [] y

/-! ### Gate discipline over traces

`gatedFrom gate allowed evs` holds when every remote call (`pageFetch` or
`commit`) in `evs` is immediately preceded by a passed, non-aborting gate
check-point; `allowed` says whether the position just before `evs` is such a
check-point. -/

def gatedFrom (gate : Gate) : Bool → List Event → Bool
  | _, [] => true
  | _, .gatePass k :: rest => !gateAborts gate k && gatedFrom gate true rest
  | allowed, .pageFetch _ :: rest => allowed && gatedFrom gate false rest
  | allowed, .commit _ _ :: rest => allowed && gatedFrom gate false rest
  | _, _ :: rest => gatedFrom gate false rest

theorem gatedFrom_mono (gate : Gate) :
    ∀ (l : List Event) (b : Bool), gatedFrom gate false l = true → gatedFrom gate b l = true := by
  intro l b h
  cases l with
  | nil => rfl
  | cons e rest =>
    cases e with
    | phase p => exact h
    | total t => exact h
    | fetchDone n => exact h
    | ingestDone n => exact h
    | gatePass k => exact h
    | pageFetch f => simp [gatedFrom] at h
    | commit f ids => simp [gatedFrom] at h

theorem gatedFrom_append (gate : Gate) :
    ∀ (l₁ l₂ : List Event) (b : Bool), gatedFrom gate b l₁ = true →
      gatedFrom gate false l₂ = true → gatedFrom gate b (l₁ ++ l₂) = true := by
  intro l₁
  induction l₁ with
  | nil => intro l₂ b _ h₂; exact gatedFrom_mono gate l₂ b h₂
  | cons e rest ih =>
    intro l₂ b h₁ h₂
    cases e with
    | gatePass k =>
      simp only [gatedFrom, List.cons_append, Bool.and_eq_true] at h₁ ⊢
      exact ⟨h₁.1, ih l₂ true h₁.2 h₂⟩
    | pageFetch f =>
      simp only [gatedFrom, List.cons_append, Bool.and_eq_true] at h₁ ⊢
      exact ⟨h₁.1, ih l₂ false h₁.2 h₂⟩
    | commit f ids =>
      simp only [gatedFrom, List.cons_append, Bool.and_eq_true] at h₁ ⊢
      exact ⟨h₁.1, ih l₂ false h₁.2 h₂⟩
    | phase p => exact ih l₂ false h₁ h₂
    | total t => exact ih l₂ false h₁ h₂
    | fetchDone n => exact ih l₂ false h₁ h₂
    | ingestDone n => exact ih l₂ false h₁ h₂

/-- The gate counter discipline of a trace segment: it starts at check-point
`k`, ends at `k'`, every check-point in between passed without aborting, and
every `gatePass` event of the segment lies in `[k, k')`. -/
def PassSpec (gate : Gate) (k k' : Nat) (evs : List Event) : Prop :=
  k ≤ k' ∧ (∀ i, k ≤ i → i < k' → gateAborts gate i = false) ∧
  (∀ j, Event.gatePass j ∈ evs → k ≤ j ∧ j < k')

theorem passSpec_nil (gate : Gate) (k : Nat) : PassSpec gate k k [] :=
  ⟨le_refl k, fun _ h1 h2 => absurd (lt_of_le_of_lt h1 h2) (lt_irrefl _), fun _ h => by cases h⟩

theorem passSpec_append (gate : Gate) {k k₁ k₂ : Nat} {evs₁ evs₂ : List Event}
    (h₁ : PassSpec gate k k₁ evs₁) (h₂ : PassSpec gate k₁ k₂ evs₂) :
    PassSpec gate k k₂ (evs₁ ++ evs₂) := by
  obtain ⟨hle₁, hab₁, hmem₁⟩ := h₁
  obtain ⟨hle₂, hab₂, hmem₂⟩ := h₂
  refine ⟨le_trans hle₁ hle₂, ?_, ?_⟩
  · intro i hi hi'
    by_cases h : i < k₁
    · exact hab₁ i hi h
    · exact hab₂ i (le_of_not_lt h) hi'
  · intro j hj
    rcases List.mem_append.mp hj with hj | hj
    · have := hmem₁ j hj
      exact ⟨this.1, lt_of_lt_of_le this.2 hle₂⟩
    · have := hmem₂ j hj
      exact ⟨le_trans hle₁ this.1, this.2⟩

theorem passSpec_mono_left (gate : Gate) {k k' : Nat} {evs : List Event}
    (h : PassSpec gate k k' evs) (k₀ : Nat) (hk : k₀ = k) : PassSpec gate k₀ k' evs := by
  rw [hk]; exact h

/-- Classification of events emitted by the collection loop. -/
def collectEvent : Event → Bool
  | .gatePass _ => true
  | .pageFetch _ => true
  | .fetchDone _ => true
  | _ => false

/-- Classification of events emitted by the batch loop. -/
def batchEvent : Event → Bool
  | .gatePass _ => true
  | .commit _ _ => true
  | .ingestDone _ => true
  | _ => false

/-- The stored counter after each successful batch: the running partial sums of
the batch sizes, starting from `base`. -/
def partialSums (base : Nat) : List (List String) → List Nat
  | [] => []
  | b :: bs => (base + b.length) :: partialSums (base + b.length) bs

theorem partialSums_ge (base : Nat) (bs : List (List String)) :
    ∀ x ∈ partialSums base bs, base ≤ x := by
  induction bs generalizing base with
  | nil => intro x hx; cases hx
  | cons b bs ih =>
    intro x hx
    rcases List.mem_cons.mp hx with rfl | hx
    · omega
    · have := ih (base + b.length) x hx
      omega

theorem partialSums_chain (base : Nat) (bs : List (List String)) :
    List.Chain' (· ≤ ·) (partialSums base bs) := by
  induction bs generalizing base with
  | nil => exact List.chain'_nil
  | cons b bs ih =>
    cases bs with
    | nil => simp [partialSums]
    | cons b₂ bs₂ =>
      simp only [partialSums]
      refine List.Chain'.cons (by omega) ?_
      have := ih (base + b.length)
      simpa only [partialSums] using this

theorem partialSums_le (base : Nat) (bs : List (List String)) :
    ∀ x ∈ partialSums base bs, x ≤ base + (bs.map List.length).sum := by
  induction bs generalizing base with
  | nil => intro x hx; cases hx
  | cons b bs ih =>
    intro x hx
    rcases List.mem_cons.mp hx with rfl | hx
    · simp only [List.map_cons, List.sum_cons]; omega
    · have := ih (base + b.length) x hx
      simp only [List.map_cons, List.sum_cons]
      omega

theorem partialSums_append (base : Nat) (bs₁ bs₂ : List (List String)) :
    partialSums base (bs₁ ++ bs₂) =
      partialSums base bs₁ ++ partialSums (base + (bs₁.map List.length).sum) bs₂ := by
  induction bs₁ generalizing base with
  | nil => simp [partialSums]
  | cons b bs ih =>
    simp only [List.cons_append, partialSums, List.append_eq, List.map_cons, List.sum_cons,
      ih, Nat.add_assoc]

/-- Events with no `filterMap` hits contribute nothing to a projection. -/
theorem filterMap_eq_nil_of {α : Type} (f : Event → Option α) (evs : List Event)
    (h : ∀ e ∈ evs, f e = none) : evs.filterMap f = [] := by
  induction evs with
  | nil => rfl
  | cons e rest ih =>
    rw [List.filterMap_cons, h e (List.mem_cons_self e rest)]
    exact ih (fun e' he' => h e' (List.mem_cons_of_mem e he'))

/-! ### Lemmas about the gate check-point -/

theorem gateStepRun_aborts (gate : Gate) (k : Nat) (h : gateAborts gate k = true) :
    gateStepRun gate k = .error cancelledMsg := by
  unfold gateStepRun
  unfold gateAborts at h
  by_cases h1 : ((gate k).pause && decide ((gate k).decision = Decision.cancel)) = true
  · rw [if_pos h1]
  · rw [if_neg h1]
    have h2 : (gate k).cancel = true := by
      rcases Bool.or_eq_true_iff.mp h with h' | h'
      · exact absurd h' h1
      · exact h'
    rw [if_pos h2]

theorem gateStepRun_passes (gate : Gate) (k : Nat) (h : gateAborts gate k = false) :
    gateStepRun gate k = .ok (k + 1, [Event.gatePass k]) := by
  unfold gateStepRun
  unfold gateAborts at h
  rcases Bool.or_eq_false_iff.mp h with ⟨h1, h2⟩
  rw [if_neg (by simp [h1]), if_neg (by simp [h2])]

/-! ### Lemmas about `collectPages` -/

/-- The `onFetchDone` burst for a page: `t` calls reporting `d+1 … d+t`. -/
def fetchBlock (t d : Nat) : List Event :=
  (List.range t).map (fun i => Event.fetchDone (d + i + 1))

theorem collectPages_at_limit (gate : Gate) (limit : Nat) (fid : String)
    (pages : List (List String)) (c d k : Nat) (hc : limit ≤ c) :
    collectPages gate limit fid pages c d k = ([], .ok (d, k, [])) := by
  rw [collectPages, if_pos hc]

theorem collectPages_abort (gate : Gate) (limit : Nat) (fid : String)
    (pages : List (List String)) (c d k : Nat) (hc : ¬ limit ≤ c)
    (hg : gateAborts gate k = true) :
    collectPages gate limit fid pages c d k = ([], .error cancelledMsg) := by
  rw [collectPages, if_neg hc, gateStepRun_aborts gate k hg]

theorem collectPages_nil (gate : Gate) (limit : Nat) (fid : String)
    (c d k : Nat) (hc : ¬ limit ≤ c) (hg : gateAborts gate k = false) :
    collectPages gate limit fid [] c d k =
      ([Event.gatePass k, Event.pageFetch fid], .ok (d, k + 1, [])) := by
  rw [collectPages, if_neg hc, gateStepRun_passes gate k hg]
  rfl

theorem collectPages_empty_page (gate : Gate) (limit : Nat) (fid : String)
    (p : List String) (rest : List (List String)) (c d k : Nat)
    (hc : ¬ limit ≤ c) (hg : gateAborts gate k = false) (hp : p.isEmpty = true) :
    collectPages gate limit fid (p :: rest) c d k =
      ([Event.gatePass k, Event.pageFetch fid], .ok (d, k + 1, [])) := by
  rw [collectPages, if_neg hc, gateStepRun_passes gate k hg]
  dsimp only
  rw [if_pos hp]
  rfl

theorem collectPages_last_page (gate : Gate) (limit : Nat) (fid : String)
    (p : List String) (rest : List (List String)) (c d k : Nat)
    (hc : ¬ limit ≤ c) (hg : gateAborts gate k = false) (hp : p.isEmpty = false)
    (hr : rest.isEmpty = true) :
    collectPages gate limit fid (p :: rest) c d k =
      (Event.gatePass k :: Event.pageFetch fid ::
         fetchBlock (p.take (limit - c)).length d,
       .ok (d + (p.take (limit - c)).length, k + 1, p.take (limit - c))) := by
  rw [collectPages, if_neg hc, gateStepRun_passes gate k hg]
  dsimp only
  rw [if_neg (by simp [hp]), if_pos hr]
  rfl

theorem collectPages_next_page (gate : Gate) (limit : Nat) (fid : String)
    (p : List String) (rest : List (List String)) (c d k : Nat)
    (hc : ¬ limit ≤ c) (hg : gateAborts gate k = false) (hp : p.isEmpty = false)
    (hr : rest.isEmpty = false) :
    collectPages gate limit fid (p :: rest) c d k =
      (Event.gatePass k :: Event.pageFetch fid ::
         fetchBlock (p.take (limit - c)).length d ++
         (collectPages gate limit fid rest (c + (p.take (limit - c)).length)
           (d + (p.take (limit - c)).length) (k + 1)).1,
       match (collectPages gate limit fid rest (c + (p.take (limit - c)).length)
           (d + (p.take (limit - c)).length) (k + 1)).2 with
       | .error e => .error e
       | .ok (dd, kk, ids) => .ok (dd, kk, p.take (limit - c) ++ ids)) := by
  rw [collectPages, if_neg hc, gateStepRun_passes gate k hg]
  dsimp only
  rw [if_neg (by simp [hp]), if_neg (by simp [hr])]
  rfl

theorem fetchBlock_events (t d : Nat) :
    ∀ e ∈ fetchBlock t d, collectEvent e = true := by
  intro e he
  rcases List.mem_map.mp he with ⟨i, _, rfl⟩
  rfl

theorem collectPages_events (gate : Gate) (limit : Nat) (fid : String) :
    ∀ (pages : List (List String)) (c d k : Nat),
      ∀ e ∈ (collectPages gate limit fid pages c d k).1, collectEvent e = true := by
  intro pages
  induction pages with
  | nil =>
    intro c d k e he
    by_cases hc : limit ≤ c
    · rw [collectPages_at_limit gate limit fid [] c d k hc] at he; cases he
    · cases hg : gateAborts gate k with
      | true => rw [collectPages_abort gate limit fid [] c d k hc hg] at he; cases he
      | false =>
        rw [collectPages_nil gate limit fid c d k hc hg] at he
        simp only [List.mem_cons, List.not_mem_nil, or_false] at he
        rcases he with rfl | rfl <;> rfl
  | cons p rest ih =>
    intro c d k e he
    by_cases hc : limit ≤ c
    · rw [collectPages_at_limit gate limit fid _ c d k hc] at he; cases he
    · cases hg : gateAborts gate k with
      | true => rw [collectPages_abort gate limit fid _ c d k hc hg] at he; cases he
      | false =>
        cases hp : p.isEmpty with
        | true =>
          rw [collectPages_empty_page gate limit fid p rest c d k hc hg hp] at he
          simp only [List.mem_cons, List.not_mem_nil, or_false] at he
          rcases he with rfl | rfl <;> rfl
        | false =>
          cases hr : rest.isEmpty with
          | true =>
            rw [collectPages_last_page gate limit fid p rest c d k hc hg hp hr] at he
            simp only [List.mem_cons] at he
            rcases he with rfl | rfl | hfe
            · rfl
            · rfl
            · exact fetchBlock_events _ d e hfe
          | false =>
            rw [collectPages_next_page gate limit fid p rest c d k hc hg hp hr] at he
            simp only [List.cons_append, List.mem_cons, List.mem_append] at he
            rcases he with rfl | rfl | hfe | hrec
            · rfl
            · rfl
            · exact fetchBlock_events _ d e hfe
            · exact ih _ _ _ e hrec

theorem gatePass_not_mem_fetchBlock (t d j : Nat) :
    Event.gatePass j ∉ fetchBlock t d := by
  intro h
  rcases List.mem_map.mp h with ⟨i, _, hij⟩
  cases hij

theorem fetchVals_fetchBlock (t d : Nat) :
    fetchVals (fetchBlock t d) = List.range' (d + 1) t := by
  unfold fetchVals fetchBlock
  rw [List.filterMap_map]
  have hfun : ((fun e => match e with | Event.fetchDone n => some n | _ => none) ∘
      (fun i => Event.fetchDone (d + i + 1))) = fun i => some (d + 1 + i) := by
    funext i
    simp only [Function.comp]
    exact congrArg some (by omega)
  rw [hfun, List.range'_eq_map_range]
  have h2 : (List.range t).filterMap (fun i => some (d + 1 + i)) =
      (List.range t).map (fun i => d + 1 + i) :=
    List.filterMap_eq_map_iff_forall_eq_some.mpr fun x => congrFun rfl
  rw [h2]

/-- Events that are pure callback reports: no remote call, no check-point. -/
def passiveEvent : Event → Bool
  | .phase _ => true
  | .total _ => true
  | .fetchDone _ => true
  | .ingestDone _ => true
  | _ => false

theorem gatedFrom_of_passive (gate : Gate) :
    ∀ (l : List Event) (b : Bool), (∀ e ∈ l, passiveEvent e = true) →
      gatedFrom gate b l = true := by
  intro l
  induction l with
  | nil => intro b _; rfl
  | cons e rest ih =>
    intro b h
    have he := h e (List.mem_cons_self e rest)
    have hrest := fun e' h' => h e' (List.mem_cons_of_mem e h')
    cases e with
    | phase p => exact ih false hrest
    | total t => exact ih false hrest
    | fetchDone n => exact ih false hrest
    | ingestDone n => exact ih false hrest
    | pageFetch f => simp [passiveEvent] at he
    | commit f i => simp [passiveEvent] at he
    | gatePass k => simp [passiveEvent] at he

theorem gatedFrom_fetchBlock (gate : Gate) (t d : Nat) (b : Bool) :
    gatedFrom gate b (fetchBlock t d) = true := by
  apply gatedFrom_of_passive
  intro e he
  rcases List.mem_map.mp he with ⟨i, _, rfl⟩
  rfl

theorem collectPages_gated (gate : Gate) (limit : Nat) (fid : String) :
    ∀ (pages : List (List String)) (c d k : Nat),
      gatedFrom gate false (collectPages gate limit fid pages c d k).1 = true := by
  intro pages
  induction pages with
  | nil =>
    intro c d k
    by_cases hc : limit ≤ c
    · rw [collectPages_at_limit gate limit fid _ c d k hc]; rfl
    · cases hg : gateAborts gate k with
      | true => rw [collectPages_abort gate limit fid _ c d k hc hg]; rfl
      | false =>
        rw [collectPages_nil gate limit fid c d k hc hg]
        simp [gatedFrom, hg]
  | cons p rest ih =>
    intro c d k
    by_cases hc : limit ≤ c
    · rw [collectPages_at_limit gate limit fid _ c d k hc]; rfl
    · cases hg : gateAborts gate k with
      | true => rw [collectPages_abort gate limit fid _ c d k hc hg]; rfl
      | false =>
        cases hp : p.isEmpty with
        | true =>
          rw [collectPages_empty_page gate limit fid p rest c d k hc hg hp]
          simp [gatedFrom, hg]
        | false =>
          cases hr : rest.isEmpty with
          | true =>
            rw [collectPages_last_page gate limit fid p rest c d k hc hg hp hr]
            show (!gateAborts gate k && gatedFrom gate true
              (Event.pageFetch fid :: fetchBlock (p.take (limit - c)).length d)) = true
            rw [hg]
            show (true && (true && gatedFrom gate false
              (fetchBlock (p.take (limit - c)).length d))) = true
            rw [gatedFrom_fetchBlock]
            rfl
          | false =>
            rw [collectPages_next_page gate limit fid p rest c d k hc hg hp hr]
            show (!gateAborts gate k && gatedFrom gate true
              (Event.pageFetch fid :: (fetchBlock (p.take (limit - c)).length d ++ _))) = true
            rw [hg]
            show (true && (true && gatedFrom gate false
              (fetchBlock (p.take (limit - c)).length d ++ _))) = true
            rw [gatedFrom_append gate _ _ false (gatedFrom_fetchBlock gate _ d false)
              (ih _ _ _)]
            rfl

theorem passSpec_gateBlock (gate : Gate) (k : Nat) (hg : gateAborts gate k = false)
    (tail : List Event) (htail : ∀ j, Event.gatePass j ∉ tail) :
    PassSpec gate k (k + 1) (Event.gatePass k :: tail) := by
  refine ⟨by omega, ?_, ?_⟩
  · intro i h1 h2
    have : i = k := by omega
    subst this
    exact hg
  · intro j hj
    rcases List.mem_cons.mp hj with hj | hj
    · have : j = k := by injection hj
      omega
    · exact absurd hj (htail j)

theorem gatePass_not_mem_pf_block (fid : String) (t d j : Nat) :
    Event.gatePass j ∉ Event.pageFetch fid :: fetchBlock t d := by
  intro h
  rcases List.mem_cons.mp h with h | h
  · cases h
  · exact gatePass_not_mem_fetchBlock t d j h

theorem collectPages_passSpec (gate : Gate) (limit : Nat) (fid : String) :
    ∀ (pages : List (List String)) (c d k : Nat),
      ∃ k', PassSpec gate k k' (collectPages gate limit fid pages c d k).1 ∧
        (∀ dd kk ids, (collectPages gate limit fid pages c d k).2 = Except.ok (dd, kk, ids) →
          kk = k') := by
  intro pages
  induction pages with
  | nil =>
    intro c d k
    by_cases hc : limit ≤ c
    · rw [collectPages_at_limit gate limit fid _ c d k hc]
      refine ⟨k, passSpec_nil gate k, ?_⟩
      intro dd kk ids h
      simp only [Except.ok.injEq, Prod.mk.injEq] at h
      exact h.2.1.symm
    · cases hg : gateAborts gate k with
      | true =>
        rw [collectPages_abort gate limit fid _ c d k hc hg]
        refine ⟨k, passSpec_nil gate k, ?_⟩
        intro dd kk ids h
        simp at h
      | false =>
        rw [collectPages_nil gate limit fid c d k hc hg]
        refine ⟨k + 1, passSpec_gateBlock gate k hg _ ?_, ?_⟩
        · intro j hj
          rcases List.mem_cons.mp hj with h | h
          · cases h
          · cases h
        · intro dd kk ids h
          simp only [Except.ok.injEq, Prod.mk.injEq] at h
          exact h.2.1.symm
  | cons p rest ih =>
    intro c d k
    by_cases hc : limit ≤ c
    · rw [collectPages_at_limit gate limit fid _ c d k hc]
      refine ⟨k, passSpec_nil gate k, ?_⟩
      intro dd kk ids h
      simp only [Except.ok.injEq, Prod.mk.injEq] at h
      exact h.2.1.symm
    · cases hg : gateAborts gate k with
      | true =>
        rw [collectPages_abort gate limit fid _ c d k hc hg]
        refine ⟨k, passSpec_nil gate k, ?_⟩
        intro dd kk ids h
        simp at h
      | false =>
        cases hp : p.isEmpty with
        | true =>
          rw [collectPages_empty_page gate limit fid p rest c d k hc hg hp]
          refine ⟨k + 1, passSpec_gateBlock gate k hg _ ?_, ?_⟩
          · intro j hj
            rcases List.mem_cons.mp hj with h | h
            · cases h
            · cases h
          · intro dd kk ids h
            simp only [Except.ok.injEq, Prod.mk.injEq] at h
            exact h.2.1.symm
        | false =>
          cases hr : rest.isEmpty with
          | true =>
            rw [collectPages_last_page gate limit fid p rest c d k hc hg hp hr]
            refine ⟨k + 1,
              passSpec_gateBlock gate k hg _ (gatePass_not_mem_pf_block fid _ d), ?_⟩
            intro dd kk ids h
            simp only [Except.ok.injEq, Prod.mk.injEq] at h
            exact h.2.1.symm
          | false =>
            rw [collectPages_next_page gate limit fid p rest c d k hc hg hp hr]
            obtain ⟨k', hps, hok⟩ := ih (c + (p.take (limit - c)).length)
              (d + (p.take (limit - c)).length) (k + 1)
            refine ⟨k', ?_, ?_⟩
            · have hblock : PassSpec gate k (k + 1)
                  (Event.gatePass k :: Event.pageFetch fid ::
                    fetchBlock (p.take (limit - c)).length d) :=
                passSpec_gateBlock gate k hg _ (gatePass_not_mem_pf_block fid _ d)
              have := passSpec_append gate hblock hps
              simpa using this
            · intro dd kk ids h
              cases hr2 : (collectPages gate limit fid rest
                  (c + (p.take (limit - c)).length)
                  (d + (p.take (limit - c)).length) (k + 1)).2 with
              | error e => rw [hr2] at h; simp at h
              | ok v =>
                obtain ⟨dd₂, kk₂, ids₂⟩ := v
                rw [hr2] at h
                simp only [Except.ok.injEq, Prod.mk.injEq] at h
                rw [← h.2.1]
                exact hok dd₂ kk₂ ids₂ hr2

theorem collectPages_fetchVals (gate : Gate) (limit : Nat) (fid : String) :
    ∀ (pages : List (List String)) (c d k : Nat),
      ∃ t, fetchVals (collectPages gate limit fid pages c d k).1 = List.range' (d + 1) t ∧
        (∀ dd kk ids, (collectPages gate limit fid pages c d k).2 = Except.ok (dd, kk, ids) →
          dd = d + t ∧ ids.length = t) := by
  intro pages
  induction pages with
  | nil =>
    intro c d k
    by_cases hc : limit ≤ c
    · rw [collectPages_at_limit gate limit fid _ c d k hc]
      refine ⟨0, rfl, ?_⟩
      intro dd kk ids h
      simp only [Except.ok.injEq, Prod.mk.injEq] at h
      obtain ⟨h1, h2, h3⟩ := h
      exact ⟨by omega, by rw [← h3]; rfl⟩
    · cases hg : gateAborts gate k with
      | true =>
        rw [collectPages_abort gate limit fid _ c d k hc hg]
        exact ⟨0, rfl, fun dd kk ids h => by simp at h⟩
      | false =>
        rw [collectPages_nil gate limit fid c d k hc hg]
        refine ⟨0, rfl, ?_⟩
        intro dd kk ids h
        simp only [Except.ok.injEq, Prod.mk.injEq] at h
        obtain ⟨h1, h2, h3⟩ := h
        exact ⟨by omega, by rw [← h3]; rfl⟩
  | cons p rest ih =>
    intro c d k
    by_cases hc : limit ≤ c
    · rw [collectPages_at_limit gate limit fid _ c d k hc]
      refine ⟨0, rfl, ?_⟩
      intro dd kk ids h
      simp only [Except.ok.injEq, Prod.mk.injEq] at h
      obtain ⟨h1, h2, h3⟩ := h
      exact ⟨by omega, by rw [← h3]; rfl⟩
    · cases hg : gateAborts gate k with
      | true =>
        rw [collectPages_abort gate limit fid _ c d k hc hg]
        exact ⟨0, rfl, fun dd kk ids h => by simp at h⟩
      | false =>
        cases hp : p.isEmpty with
        | true =>
          rw [collectPages_empty_page gate limit fid p rest c d k hc hg hp]
          refine ⟨0, rfl, ?_⟩
          intro dd kk ids h
          simp only [Except.ok.injEq, Prod.mk.injEq] at h
          obtain ⟨h1, h2, h3⟩ := h
          exact ⟨by omega, by rw [← h3]; rfl⟩
        | false =>
          cases hr : rest.isEmpty with
          | true =>
            rw [collectPages_last_page gate limit fid p rest c d k hc hg hp hr]
            refine ⟨(p.take (limit - c)).length, ?_, ?_⟩
            · show fetchVals (fetchBlock (p.take (limit - c)).length d) = _
              exact fetchVals_fetchBlock _ d
            · intro dd kk ids h
              simp only [Except.ok.injEq, Prod.mk.injEq] at h
              exact ⟨h.1.symm, by rw [← h.2.2]⟩
          | false =>
            rw [collectPages_next_page gate limit fid p rest c d k hc hg hp hr]
            obtain ⟨t₂, hfv₂, hok₂⟩ := ih (c + (p.take (limit - c)).length)
              (d + (p.take (limit - c)).length) (k + 1)
            refine ⟨(p.take (limit - c)).length + t₂, ?_, ?_⟩
            · show fetchVals (fetchBlock (p.take (limit - c)).length d ++ _) = _
              unfold fetchVals
              rw [List.filterMap_append]
              show fetchVals _ ++ fetchVals _ = _
              rw [fetchVals_fetchBlock _ d, hfv₂]
              rw [show d + (p.take (limit - c)).length + 1 =
                d + 1 + 1 * (p.take (limit - c)).length by omega]
              rw [List.range'_append]
              exact congrArg (fun n => List.range' (d + 1) n) (by omega)
            · intro dd kk ids h
              cases hr2 : (collectPages gate limit fid rest
                  (c + (p.take (limit - c)).length)
                  (d + (p.take (limit - c)).length) (k + 1)).2 with
              | error e => rw [hr2] at h; simp at h
              | ok v =>
                obtain ⟨dd₂, kk₂, ids₂⟩ := v
                rw [hr2] at h
                simp only [Except.ok.injEq, Prod.mk.injEq] at h
                obtain ⟨hdd, _, hids⟩ := h
                obtain ⟨hdd₂, hlen₂⟩ := hok₂ dd₂ kk₂ ids₂ hr2
                constructor
                · omega
                · rw [← hids, List.length_append, hlen₂]

theorem chunk_ne_nil {α : Type} {size : Nat} {l : List α} (hl : l ≠ []) (hs : size ≠ 0) :
    chunk size l ≠ [] := by
  rw [chunk_of_ne_nil hl hs]
  exact List.cons_ne_nil _ _

theorem collectPages_ok (gate : Gate) (limit : Nat) (fid : String)
    (hgate : ∀ k, gateAborts gate k = false) (PS : Nat) (hPS : 1 ≤ PS)
    (msgs : List String) : ∀ (c d k : Nat),
      ∃ k', (collectPages gate limit fid (chunk PS msgs) c d k).2 =
        Except.ok (d + min (limit - c) msgs.length, k', msgs.take (limit - c)) := by
  intro c d k
  by_cases hc : limit ≤ c
  · refine ⟨k, ?_⟩
    rw [collectPages_at_limit gate limit fid _ c d k hc]
    have h1 : limit - c = 0 := by omega
    rw [h1]
    simp
  · by_cases hm : msgs = []
    · subst hm
      refine ⟨k + 1, ?_⟩
      rw [chunk_nil, collectPages_nil gate limit fid c d k hc (hgate k)]
      simp
    · have h3 : 0 < msgs.length := List.length_pos.mpr hm
      have htk : msgs.take PS ≠ [] := by
        intro hcon
        have hlen0 := congrArg List.length hcon
        rw [List.length_take] at hlen0
        simp only [List.length_nil] at hlen0
        omega
      have hp : (msgs.take PS).isEmpty = false := by
        cases hq : (msgs.take PS).isEmpty
        · rfl
        · exact absurd (List.isEmpty_iff.mp hq) htk
      rw [chunk_of_ne_nil hm (by omega)]
      by_cases hdrop : msgs.drop PS = []
      · have hr : (chunk PS (msgs.drop PS)).isEmpty = true := by
          rw [hdrop, chunk_nil]
          rfl
        refine ⟨k + 1, ?_⟩
        rw [collectPages_last_page gate limit fid _ _ c d k hc (hgate k) hp hr]
        have hlen : msgs.length ≤ PS := by
          have hd0 := congrArg List.length hdrop
          rw [List.length_drop] at hd0
          simp only [List.length_nil] at hd0
          omega
        have htake : msgs.take PS = msgs := List.take_of_length_le hlen
        rw [htake]
        dsimp only
        rw [List.length_take]
      · have hrne : chunk PS (msgs.drop PS) ≠ [] := chunk_ne_nil hdrop (by omega)
        have hr : (chunk PS (msgs.drop PS)).isEmpty = false := by
          cases hq : (chunk PS (msgs.drop PS)).isEmpty
          · rfl
          · exact absurd (List.isEmpty_iff.mp hq) hrne
        rw [collectPages_next_page gate limit fid _ _ c d k hc (hgate k) hp hr]
        have hMgt : PS < msgs.length := by
          have h4 : 0 < (msgs.drop PS).length := List.length_pos.mpr hdrop
          rw [List.length_drop] at h4
          omega
        have htt : ((msgs.take PS).take (limit - c)).length = min (limit - c) PS := by
          rw [List.length_take, List.length_take]
          omega
        obtain ⟨k'', hrec⟩ := collectPages_ok gate limit fid hgate PS hPS (msgs.drop PS)
          (c + ((msgs.take PS).take (limit - c)).length)
          (d + ((msgs.take PS).take (limit - c)).length) (k + 1)
        refine ⟨k'', ?_⟩
        dsimp only
        rw [hrec]
        have hdd : d + ((msgs.take PS).take (limit - c)).length +
            min (limit - (c + ((msgs.take PS).take (limit - c)).length))
              (msgs.drop PS).length = d + min (limit - c) msgs.length := by
          rw [List.length_drop, htt]
          omega
        have hids : (msgs.take PS).take (limit - c) ++
            (msgs.drop PS).take (limit - (c + ((msgs.take PS).take (limit - c)).length)) =
            msgs.take (limit - c) := by
          by_cases hL : limit - c ≤ PS
          · have h5 : limit - (c + ((msgs.take PS).take (limit - c)).length) = 0 := by
              rw [htt]
              omega
            rw [h5, List.take_zero, List.append_nil, List.take_take]
            exact congrArg (fun n => msgs.take n) (by omega)
          · have h5 : limit - (c + ((msgs.take PS).take (limit - c)).length) =
                limit - c - PS := by
              rw [htt]
              omega
            rw [h5, List.take_take]
            have h6 : min (limit - c) PS = PS := by omega
            rw [h6, ← List.take_add]
            exact congrArg (fun n => msgs.take n) (by omega)
        rw [hdd]
        dsimp only
        rw [hids]
termination_by msgs.length
decreasing_by
  rw [List.length_drop]
  omega

/-! ### Lemmas about `collectFolders` -/

theorem collectFolders_cons_error (env : Env) (gate : Gate) (limit PS : Nat)
    (f : Folder) (fs : List Folder) (done k : Nat) (e : String)
    (h : (collectPages gate limit f.id (chunk PS (env.folderMsgs f.id)) 0 done k).2 =
      Except.error e) :
    collectFolders env gate limit PS (f :: fs) done k =
      ((collectPages gate limit f.id (chunk PS (env.folderMsgs f.id)) 0 done k).1,
       Except.error e) := by
  rw [collectFolders]
  dsimp only
  rw [h]

theorem collectFolders_cons_ok (env : Env) (gate : Gate) (limit PS : Nat)
    (f : Folder) (fs : List Folder) (done k done' k' : Nat) (ids : List String)
    (h : (collectPages gate limit f.id (chunk PS (env.folderMsgs f.id)) 0 done k).2 =
      Except.ok (done', k', ids)) :
    collectFolders env gate limit PS (f :: fs) done k =
      ((collectPages gate limit f.id (chunk PS (env.folderMsgs f.id)) 0 done k).1 ++
         (collectFolders env gate limit PS fs done' k').1,
       match (collectFolders env gate limit PS fs done' k').2 with
       | .error e => .error e
       | .ok (d, kk, ids₂) => .ok (d, kk, ids ++ ids₂)) := by
  rw [collectFolders]
  dsimp only
  rw [h]

theorem collectFolders_events (env : Env) (gate : Gate) (limit PS : Nat) :
    ∀ (fs : List Folder) (done k : Nat),
      ∀ e ∈ (collectFolders env gate limit PS fs done k).1, collectEvent e = true := by
  intro fs
  induction fs with
  | nil => intro done k e he; cases he
  | cons f fs ih =>
    intro done k e he
    cases hr2 : (collectPages gate limit f.id (chunk PS (env.folderMsgs f.id)) 0 done k).2 with
    | error e2 =>
      rw [collectFolders_cons_error env gate limit PS f fs done k e2 hr2] at he
      exact collectPages_events gate limit f.id _ 0 done k e he
    | ok v =>
      obtain ⟨done', k', ids⟩ := v
      rw [collectFolders_cons_ok env gate limit PS f fs done k done' k' ids hr2] at he
      rcases List.mem_append.mp he with he | he
      · exact collectPages_events gate limit f.id _ 0 done k e he
      · exact ih done' k' e he

theorem collectFolders_gated (env : Env) (gate : Gate) (limit PS : Nat) :
    ∀ (fs : List Folder) (done k : Nat),
      gatedFrom gate false (collectFolders env gate limit PS fs done k).1 = true := by
  intro fs
  induction fs with
  | nil => intro done k; rfl
  | cons f fs ih =>
    intro done k
    cases hr2 : (collectPages gate limit f.id (chunk PS (env.folderMsgs f.id)) 0 done k).2 with
    | error e2 =>
      rw [collectFolders_cons_error env gate limit PS f fs done k e2 hr2]
      exact collectPages_gated gate limit f.id _ 0 done k
    | ok v =>
      obtain ⟨done', k', ids⟩ := v
      rw [collectFolders_cons_ok env gate limit PS f fs done k done' k' ids hr2]
      exact gatedFrom_append gate _ _ false
        (collectPages_gated gate limit f.id _ 0 done k) (ih done' k')

theorem collectFolders_passSpec (env : Env) (gate : Gate) (limit PS : Nat) :
    ∀ (fs : List Folder) (done k : Nat),
      ∃ k', PassSpec gate k k' (collectFolders env gate limit PS fs done k).1 ∧
        (∀ dd kk ids, (collectFolders env gate limit PS fs done k).2 =
          Except.ok (dd, kk, ids) → kk = k') := by
  intro fs
  induction fs with
  | nil =>
    intro done k
    refine ⟨k, passSpec_nil gate k, ?_⟩
    intro dd kk ids h
    simp only [collectFolders, Except.ok.injEq, Prod.mk.injEq] at h
    exact h.2.1.symm
  | cons f fs ih =>
    intro done k
    obtain ⟨k₁, hps₁, hok₁⟩ := collectPages_passSpec gate limit f.id
      (chunk PS (env.folderMsgs f.id)) 0 done k
    cases hr2 : (collectPages gate limit f.id (chunk PS (env.folderMsgs f.id)) 0 done k).2 with
    | error e2 =>
      rw [collectFolders_cons_error env gate limit PS f fs done k e2 hr2]
      refine ⟨k₁, hps₁, ?_⟩
      intro dd kk ids h
      simp at h
    | ok v =>
      obtain ⟨done', k', ids⟩ := v
      have hk₁ : k' = k₁ := hok₁ done' k' ids hr2
      subst hk₁
      obtain ⟨k₂, hps₂, hok₂⟩ := ih done' k'
      rw [collectFolders_cons_ok env gate limit PS f fs done k done' k' ids hr2]
      refine ⟨k₂, passSpec_append gate hps₁ hps₂, ?_⟩
      intro dd kk ids₂ h
      cases hr3 : (collectFolders env gate limit PS fs done' k').2 with
      | error e3 => rw [hr3] at h; simp at h
      | ok v₃ =>
        obtain ⟨dd₃, kk₃, ids₃⟩ := v₃
        rw [hr3] at h
        simp only [Except.ok.injEq, Prod.mk.injEq] at h
        rw [← h.2.1]
        exact hok₂ dd₃ kk₃ ids₃ hr3

theorem collectFolders_fetchVals (env : Env) (gate : Gate) (limit PS : Nat) :
    ∀ (fs : List Folder) (done k : Nat),
      ∃ t, fetchVals (collectFolders env gate limit PS fs done k).1 =
          List.range' (done + 1) t ∧
        (∀ dd kk ids, (collectFolders env gate limit PS fs done k).2 =
          Except.ok (dd, kk, ids) → dd = done + t ∧ ids.length = t) := by
  intro fs
  induction fs with
  | nil =>
    intro done k
    refine ⟨0, rfl, ?_⟩
    intro dd kk ids h
    simp only [collectFolders, Except.ok.injEq, Prod.mk.injEq] at h
    obtain ⟨h1, h2, h3⟩ := h
    exact ⟨by omega, by rw [← h3]; rfl⟩
  | cons f fs ih =>
    intro done k
    obtain ⟨t₁, hfv₁, hok₁⟩ := collectPages_fetchVals gate limit f.id
      (chunk PS (env.folderMsgs f.id)) 0 done k
    cases hr2 : (collectPages gate limit f.id (chunk PS (env.folderMsgs f.id)) 0 done k).2 with
    | error e2 =>
      rw [collectFolders_cons_error env gate limit PS f fs done k e2 hr2]
      refine ⟨t₁, hfv₁, ?_⟩
      intro dd kk ids h
      simp at h
    | ok v =>
      obtain ⟨done', k', ids⟩ := v
      obtain ⟨hdone', hlen₁⟩ := hok₁ done' k' ids hr2
      subst hdone'
      obtain ⟨t₂, hfv₂, hok₂⟩ := ih (done + t₁) k'
      rw [collectFolders_cons_ok env gate limit PS f fs done k (done + t₁) k' ids hr2]
      refine ⟨t₁ + t₂, ?_, ?_⟩
      · unfold fetchVals
        rw [List.filterMap_append]
        show fetchVals _ ++ fetchVals _ = _
        rw [hfv₁, hfv₂]
        rw [show done + t₁ + 1 = done + 1 + 1 * t₁ by omega]
        rw [List.range'_append]
        exact congrArg (fun n => List.range' (done + 1) n) (by omega)
      · intro dd kk ids₂ h
        cases hr3 : (collectFolders env gate limit PS fs (done + t₁) k').2 with
        | error e3 => rw [hr3] at h; simp at h
        | ok v₃ =>
          obtain ⟨dd₃, kk₃, ids₃⟩ := v₃
          rw [hr3] at h
          simp only [Except.ok.injEq, Prod.mk.injEq] at h
          obtain ⟨hdd, _, hids⟩ := h
          obtain ⟨hdd₃, hlen₃⟩ := hok₂ dd₃ kk₃ ids₃ hr3
          constructor
          · omega
          · rw [← hids, List.length_append, hlen₁, hlen₃]

theorem collectFolders_ok (env : Env) (gate : Gate) (limit PS : Nat)
    (hgate : ∀ k, gateAborts gate k = false) (hPS : 1 ≤ PS) :
    ∀ (fs : List Folder) (done k : Nat), ∃ k',
      (collectFolders env gate limit PS fs done k).2 =
        Except.ok
          (done + (fs.map (fun f => min limit (env.folderMsgs f.id).length)).sum, k',
           (fs.map (fun f => (env.folderMsgs f.id).take limit)).flatten) := by
  intro fs
  induction fs with
  | nil =>
    intro done k
    refine ⟨k, ?_⟩
    simp [collectFolders]
  | cons f fs ih =>
    intro done k
    obtain ⟨k₁, h₁⟩ := collectPages_ok gate limit f.id hgate PS hPS (env.folderMsgs f.id) 0 done k
    rw [Nat.sub_zero] at h₁
    obtain ⟨k₂, h₂⟩ := ih (done + min limit (env.folderMsgs f.id).length) k₁
    refine ⟨k₂, ?_⟩
    rw [collectFolders_cons_ok env gate limit PS f fs done k _ k₁ _ h₁]
    rw [h₂]
    dsimp only
    simp only [List.map_cons, List.sum_cons, List.flatten_cons]
    rw [Nat.add_assoc]

/-! ### Lemmas about `ingestBatches` -/

theorem ingestBatches_abort (gate : Gate) (fid : String) (b : List String)
    (bs : List (List String)) (ing k : Nat) (hg : gateAborts gate k = true) :
    ingestBatches gate fid (b :: bs) ing k = ([], .error cancelledMsg) := by
  rw [ingestBatches, gateStepRun_aborts gate k hg]

theorem ingestBatches_pass (gate : Gate) (fid : String) (b : List String)
    (bs : List (List String)) (ing k : Nat) (hg : gateAborts gate k = false) :
    ingestBatches gate fid (b :: bs) ing k =
      (Event.gatePass k :: Event.commit fid b :: Event.ingestDone (ing + b.length) ::
         (ingestBatches gate fid bs (ing + b.length) (k + 1)).1,
       (ingestBatches gate fid bs (ing + b.length) (k + 1)).2) := by
  rw [ingestBatches, gateStepRun_passes gate k hg]
  rfl

theorem ingestBatches_events (gate : Gate) (fid : String) :
    ∀ (bs : List (List String)) (ing k : Nat),
      ∀ e ∈ (ingestBatches gate fid bs ing k).1, batchEvent e = true := by
  intro bs
  induction bs with
  | nil => intro ing k e he; cases he
  | cons b bs ih =>
    intro ing k e he
    cases hg : gateAborts gate k with
    | true => rw [ingestBatches_abort gate fid b bs ing k hg] at he; cases he
    | false =>
      rw [ingestBatches_pass gate fid b bs ing k hg] at he
      simp only [List.mem_cons] at he
      rcases he with rfl | rfl | rfl | he
      · rfl
      · rfl
      · rfl
      · exact ih (ing + b.length) (k + 1) e he

theorem ingestBatches_gated (gate : Gate) (fid : String) :
    ∀ (bs : List (List String)) (ing k : Nat),
      gatedFrom gate false (ingestBatches gate fid bs ing k).1 = true := by
  intro bs
  induction bs with
  | nil => intro ing k; rfl
  | cons b bs ih =>
    intro ing k
    cases hg : gateAborts gate k with
    | true => rw [ingestBatches_abort gate fid b bs ing k hg]; rfl
    | false =>
      rw [ingestBatches_pass gate fid b bs ing k hg]
      show (!gateAborts gate k && gatedFrom gate true (Event.commit fid b ::
        Event.ingestDone (ing + b.length) ::
        (ingestBatches gate fid bs (ing + b.length) (k + 1)).1)) = true
      rw [hg]
      show (true && (true && gatedFrom gate false (Event.ingestDone (ing + b.length) ::
        (ingestBatches gate fid bs (ing + b.length) (k + 1)).1))) = true
      show (true && (true && gatedFrom gate false
        (ingestBatches gate fid bs (ing + b.length) (k + 1)).1)) = true
      rw [ih (ing + b.length) (k + 1)]
      rfl

theorem ingestBatches_passSpec (gate : Gate) (fid : String) :
    ∀ (bs : List (List String)) (ing k : Nat),
      ∃ k', PassSpec gate k k' (ingestBatches gate fid bs ing k).1 ∧
        (∀ kk, (ingestBatches gate fid bs ing k).2 = Except.ok kk → kk = k') := by
  intro bs
  induction bs with
  | nil =>
    intro ing k
    refine ⟨k, passSpec_nil gate k, ?_⟩
    intro kk h
    simp only [ingestBatches, Except.ok.injEq] at h
    exact h.symm
  | cons b bs ih =>
    intro ing k
    cases hg : gateAborts gate k with
    | true =>
      rw [ingestBatches_abort gate fid b bs ing k hg]
      refine ⟨k, passSpec_nil gate k, ?_⟩
      intro kk h
      simp at h
    | false =>
      obtain ⟨k₂, hps₂, hok₂⟩ := ih (ing + b.length) (k + 1)
      rw [ingestBatches_pass gate fid b bs ing k hg]
      have hblock : PassSpec gate k (k + 1)
          [Event.gatePass k, Event.commit fid b, Event.ingestDone (ing + b.length)] := by
        refine passSpec_gateBlock gate k hg _ ?_
        intro j hj
        rcases List.mem_cons.mp hj with h | h
        · cases h
        · rcases List.mem_cons.mp h with h | h
          · cases h
          · cases h
      have := passSpec_append gate hblock hps₂
      refine ⟨k₂, by simpa using this, hok₂⟩

theorem ingestBatches_vals (gate : Gate) (fid : String) :
    ∀ (bs : List (List String)) (ing k : Nat),
      ∃ m, m ≤ bs.length ∧
        ingestVals (ingestBatches gate fid bs ing k).1 = partialSums ing (bs.take m) ∧
        commitVals (ingestBatches gate fid bs ing k).1 = bs.take m ∧
        (∀ kk, (ingestBatches gate fid bs ing k).2 = Except.ok kk → m = bs.length) := by
  intro bs
  induction bs with
  | nil =>
    intro ing k
    exact ⟨0, Nat.le_refl 0, rfl, rfl, fun kk h => rfl⟩
  | cons b bs ih =>
    intro ing k
    cases hg : gateAborts gate k with
    | true =>
      rw [ingestBatches_abort gate fid b bs ing k hg]
      refine ⟨0, by omega, rfl, rfl, ?_⟩
      intro kk h
      simp at h
    | false =>
      obtain ⟨m, hm, hiv, hcv, hok⟩ := ih (ing + b.length) (k + 1)
      rw [ingestBatches_pass gate fid b bs ing k hg]
      refine ⟨m + 1, by simp only [List.length_cons]; omega, ?_, ?_, ?_⟩
      · show (ing + b.length) ::
          ingestVals (ingestBatches gate fid bs (ing + b.length) (k + 1)).1 = _
        rw [hiv, List.take_succ_cons, partialSums]
      · show b :: commitVals (ingestBatches gate fid bs (ing + b.length) (k + 1)).1 = _
        rw [hcv, List.take_succ_cons]
      · intro kk h
        simp only [List.length_cons]
        rw [hok kk h]

theorem ingestBatches_ok (gate : Gate) (fid : String)
    (hgate : ∀ k, gateAborts gate k = false) :
    ∀ (bs : List (List String)) (ing k : Nat),
      ∃ k', (ingestBatches gate fid bs ing k).2 = Except.ok k' := by
  intro bs
  induction bs with
  | nil => intro ing k; exact ⟨k, rfl⟩
  | cons b bs ih =>
    intro ing k
    rw [ingestBatches_pass gate fid b bs ing k (hgate k)]
    exact ih (ing + b.length) (k + 1)

/-! ### Projection emptiness and distribution -/

theorem phaseVals_append (l₁ l₂ : List Event) :
    phaseVals (l₁ ++ l₂) = phaseVals l₁ ++ phaseVals l₂ := by
  unfold phaseVals
  exact List.filterMap_append l₁ l₂ _

theorem totalVals_append (l₁ l₂ : List Event) :
    totalVals (l₁ ++ l₂) = totalVals l₁ ++ totalVals l₂ := by
  unfold totalVals
  exact List.filterMap_append l₁ l₂ _

theorem fetchVals_append (l₁ l₂ : List Event) :
    fetchVals (l₁ ++ l₂) = fetchVals l₁ ++ fetchVals l₂ := by
  unfold fetchVals
  exact List.filterMap_append l₁ l₂ _

theorem ingestVals_append (l₁ l₂ : List Event) :
    ingestVals (l₁ ++ l₂) = ingestVals l₁ ++ ingestVals l₂ := by
  unfold ingestVals
  exact List.filterMap_append l₁ l₂ _

theorem commitVals_append (l₁ l₂ : List Event) :
    commitVals (l₁ ++ l₂) = commitVals l₁ ++ commitVals l₂ := by
  unfold commitVals
  exact List.filterMap_append l₁ l₂ _

theorem collect_no_phase (evs : List Event) (h : ∀ e ∈ evs, collectEvent e = true) :
    phaseVals evs = [] := by
  unfold phaseVals
  apply filterMap_eq_nil_of
  intro e he
  have hc := h e he
  cases e <;> first | rfl | simp [collectEvent] at hc

theorem collect_no_total (evs : List Event) (h : ∀ e ∈ evs, collectEvent e = true) :
    totalVals evs = [] := by
  unfold totalVals
  apply filterMap_eq_nil_of
  intro e he
  have hc := h e he
  cases e <;> first | rfl | simp [collectEvent] at hc

theorem collect_no_ingest (evs : List Event) (h : ∀ e ∈ evs, collectEvent e = true) :
    ingestVals evs = [] := by
  unfold ingestVals
  apply filterMap_eq_nil_of
  intro e he
  have hc := h e he
  cases e <;> first | rfl | simp [collectEvent] at hc

theorem collect_no_commit (evs : List Event) (h : ∀ e ∈ evs, collectEvent e = true) :
    commitVals evs = [] := by
  unfold commitVals
  apply filterMap_eq_nil_of
  intro e he
  have hc := h e he
  cases e <;> first | rfl | simp [collectEvent] at hc

theorem batch_no_phase (evs : List Event) (h : ∀ e ∈ evs, batchEvent e = true) :
    phaseVals evs = [] := by
  unfold phaseVals
  apply filterMap_eq_nil_of
  intro e he
  have hc := h e he
  cases e <;> first | rfl | simp [batchEvent] at hc

theorem batch_no_total (evs : List Event) (h : ∀ e ∈ evs, batchEvent e = true) :
    totalVals evs = [] := by
  unfold totalVals
  apply filterMap_eq_nil_of
  intro e he
  have hc := h e he
  cases e <;> first | rfl | simp [batchEvent] at hc

theorem batch_no_fetch (evs : List Event) (h : ∀ e ∈ evs, batchEvent e = true) :
    fetchVals evs = [] := by
  unfold fetchVals
  apply filterMap_eq_nil_of
  intro e he
  have hc := h e he
  cases e <;> first | rfl | simp [batchEvent] at hc

/-! ### Structural equations of `collectStage` and `run_ingestion` -/

theorem collectStage_emails (env : Env) (gate : Gate) (args : RunIngestArgs)
    (h : args.ingest_mode = IngestMode.EMAILS) :
    collectStage env gate args =
      ([Event.phase Phase.FETCHING, Event.total (some args.selected_email_ids.length),
        Event.fetchDone args.selected_email_ids.length],
       .ok (0, args.selected_email_ids)) := by
  unfold collectStage
  rw [h]
  rfl

theorem collectStage_folders (env : Env) (gate : Gate) (args : RunIngestArgs)
    (h : args.ingest_mode = IngestMode.FOLDERS) :
    collectStage env gate args =
      (Event.phase Phase.FETCHING ::
         Event.total (if approxTotal args = 0 then none else some (approxTotal args)) ::
         (collectFolders env gate (effLimit args) (args.page_size.getD 25)
            (chosenFolders args) 0 0).1,
       match (collectFolders env gate (effLimit args) (args.page_size.getD 25)
            (chosenFolders args) 0 0).2 with
       | .error e => .error e
       | .ok (_, k, all_ids) => .ok (k, uniq all_ids)) := by
  unfold collectStage
  rw [h]
  rfl

theorem run_ingestion_collect_error (env : Env) (gate : Gate) (rid rl : String)
    (args : RunIngestArgs) (e : String)
    (h : (collectStage env gate args).2 = .error e) :
    run_ingestion env gate rid rl args = ((collectStage env gate args).1, .error e) := by
  unfold run_ingestion
  dsimp only
  rw [h]

theorem run_ingestion_no_items (env : Env) (gate : Gate) (rid rl : String)
    (args : RunIngestArgs) (k : Nat) (ids : List String)
    (h : (collectStage env gate args).2 = .ok (k, ids)) (hids : ids.isEmpty = true) :
    run_ingestion env gate rid rl args =
      ((collectStage env gate args).1, .error noItemsMsg) := by
  unfold run_ingestion
  dsimp only
  rw [h]
  dsimp only
  rw [if_pos hids]

theorem run_ingestion_store_error (env : Env) (gate : Gate) (rid rl : String)
    (args : RunIngestArgs) (k : Nat) (ids : List String) (e : String)
    (h : (collectStage env gate args).2 = .ok (k, ids)) (hids : ids.isEmpty = false)
    (hb : (ingestBatches gate (folderIdToSend args)
      (chunk (args.batch_size.getD 5) ids) 0 k).2 = .error e) :
    run_ingestion env gate rid rl args =
      ((collectStage env gate args).1 ++ [Event.phase Phase.STORING] ++
         (ingestBatches gate (folderIdToSend args)
           (chunk (args.batch_size.getD 5) ids) 0 k).1,
       .error e) := by
  unfold run_ingestion
  dsimp only
  rw [h]
  dsimp only
  rw [if_neg (by simp [hids])]
  rw [hb]

theorem run_ingestion_success (env : Env) (gate : Gate) (rid rl : String)
    (args : RunIngestArgs) (k kk : Nat) (ids : List String)
    (h : (collectStage env gate args).2 = .ok (k, ids)) (hids : ids.isEmpty = false)
    (hb : (ingestBatches gate (folderIdToSend args)
      (chunk (args.batch_size.getD 5) ids) 0 k).2 = .ok kk) :
    run_ingestion env gate rid rl args =
      ((collectStage env gate args).1 ++ [Event.phase Phase.STORING] ++
         (ingestBatches gate (folderIdToSend args)
           (chunk (args.batch_size.getD 5) ids) 0 k).1 ++
         [Event.phase Phase.INDEXING, Event.phase Phase.DONE],
       .ok ⟨rid, rl, ids⟩) := by
  unfold run_ingestion
  dsimp only
  rw [h]
  dsimp only
  rw [if_neg (by simp [hids])]
  rw [hb]

/-! ### Composition lemmas for `collectStage` -/

theorem passSpec_cons_passive (gate : Gate) {k k' : Nat} {l : List Event} {e : Event}
    (he : ∀ j, e ≠ Event.gatePass j) (h : PassSpec gate k k' l) :
    PassSpec gate k k' (e :: l) := by
  obtain ⟨h1, h2, h3⟩ := h
  refine ⟨h1, h2, ?_⟩
  intro j hj
  rcases List.mem_cons.mp hj with hj | hj
  · exact absurd hj.symm (he j)
  · exact h3 j hj

theorem collectStage_gated (env : Env) (gate : Gate) (args : RunIngestArgs) :
    gatedFrom gate false (collectStage env gate args).1 = true := by
  cases hm : args.ingest_mode with
  | EMAILS =>
    rw [collectStage_emails env gate args hm]
    apply gatedFrom_of_passive
    intro e he
    simp only [List.mem_cons, List.not_mem_nil, or_false] at he
    rcases he with rfl | rfl | rfl <;> rfl
  | FOLDERS =>
    rw [collectStage_folders env gate args hm]
    show gatedFrom gate false (collectFolders env gate (effLimit args)
      (args.page_size.getD 25) (chosenFolders args) 0 0).1 = true
    exact collectFolders_gated env gate _ _ _ 0 0

theorem collectStage_passSpec (env : Env) (gate : Gate) (args : RunIngestArgs) :
    ∃ K, PassSpec gate 0 K (collectStage env gate args).1 ∧
      (∀ k ids, (collectStage env gate args).2 = Except.ok (k, ids) → k = K) := by
  cases hm : args.ingest_mode with
  | EMAILS =>
    rw [collectStage_emails env gate args hm]
    refine ⟨0, ?_, ?_⟩
    · refine passSpec_cons_passive gate (fun j h => by cases h) ?_
      refine passSpec_cons_passive gate (fun j h => by cases h) ?_
      refine passSpec_cons_passive gate (fun j h => by cases h) ?_
      exact passSpec_nil gate 0
    · intro k ids h
      simp only [Except.ok.injEq, Prod.mk.injEq] at h
      exact h.1.symm
  | FOLDERS =>
    obtain ⟨k₁, hps, hok⟩ := collectFolders_passSpec env gate (effLimit args)
      (args.page_size.getD 25) (chosenFolders args) 0 0
    rw [collectStage_folders env gate args hm]
    refine ⟨k₁, ?_, ?_⟩
    · refine passSpec_cons_passive gate (fun j h => by cases h) ?_
      refine passSpec_cons_passive gate (fun j h => by cases h) ?_
      exact hps
    · intro k ids h
      cases hcf : (collectFolders env gate (effLimit args) (args.page_size.getD 25)
          (chosenFolders args) 0 0).2 with
      | error e => rw [hcf] at h; simp at h
      | ok v =>
        obtain ⟨dd, kk, aids⟩ := v
        rw [hcf] at h
        simp only [Except.ok.injEq, Prod.mk.injEq] at h
        rw [← h.1]
        exact hok dd kk aids hcf

theorem collectStage_phaseVals (env : Env) (gate : Gate) (args : RunIngestArgs) :
    phaseVals (collectStage env gate args).1 = [Phase.FETCHING] := by
  cases hm : args.ingest_mode with
  | EMAILS => rw [collectStage_emails env gate args hm]; rfl
  | FOLDERS =>
    rw [collectStage_folders env gate args hm]
    show Phase.FETCHING :: phaseVals (collectFolders env gate (effLimit args)
      (args.page_size.getD 25) (chosenFolders args) 0 0).1 = _
    rw [collect_no_phase _ (collectFolders_events env gate _ _ _ 0 0)]

theorem collectStage_no_ingest (env : Env) (gate : Gate) (args : RunIngestArgs) :
    ingestVals (collectStage env gate args).1 = [] := by
  cases hm : args.ingest_mode with
  | EMAILS => rw [collectStage_emails env gate args hm]; rfl
  | FOLDERS =>
    rw [collectStage_folders env gate args hm]
    show ingestVals (collectFolders env gate (effLimit args)
      (args.page_size.getD 25) (chosenFolders args) 0 0).1 = []
    exact collect_no_ingest _ (collectFolders_events env gate _ _ _ 0 0)

theorem collectStage_no_commit (env : Env) (gate : Gate) (args : RunIngestArgs) :
    commitVals (collectStage env gate args).1 = [] := by
  cases hm : args.ingest_mode with
  | EMAILS => rw [collectStage_emails env gate args hm]; rfl
  | FOLDERS =>
    rw [collectStage_folders env gate args hm]
    show commitVals (collectFolders env gate (effLimit args)
      (args.page_size.getD 25) (chosenFolders args) 0 0).1 = []
    exact collect_no_commit _ (collectFolders_events env gate _ _ _ 0 0)

/-! ### Concrete fixtures -/

/-- A gate that never pauses and never requests cancellation. -/
def gateNone : Gate := fun _ => ⟨false, Decision.cont, false⟩

theorem gateNone_ok : ∀ k, gateAborts gateNone k = false := fun _ => rfl

/-- A gate whose hard cancel flag is set from the start. -/
def gateCancel : Gate := fun _ => ⟨false, Decision.cont, true⟩

/-- An empty remote source. -/
def envEmpty : Env := ⟨fun _ => []⟩

/-! ### Every thrown collection/storing error is the cancellation message -/

theorem collectPages_error_msg (gate : Gate) (limit : Nat) (fid : String) :
    ∀ (pages : List (List String)) (c d k : Nat) (e : String),
      (collectPages gate limit fid pages c d k).2 = Except.error e →
      e = cancelledMsg := by
  intro pages
  induction pages with
  | nil =>
    intro c d k e h
    by_cases hc : limit ≤ c
    · rw [collectPages_at_limit gate limit fid _ c d k hc] at h
      simp at h
    · cases hg : gateAborts gate k with
      | true =>
        rw [collectPages_abort gate limit fid _ c d k hc hg] at h
        simp only [Except.error.injEq] at h
        exact h.symm
      | false =>
        rw [collectPages_nil gate limit fid c d k hc hg] at h
        simp at h
  | cons p rest ih =>
    intro c d k e h
    by_cases hc : limit ≤ c
    · rw [collectPages_at_limit gate limit fid _ c d k hc] at h
      simp at h
    · cases hg : gateAborts gate k with
      | true =>
        rw [collectPages_abort gate limit fid _ c d k hc hg] at h
        simp only [Except.error.injEq] at h
        exact h.symm
      | false =>
        cases hp : p.isEmpty with
        | true =>
          rw [collectPages_empty_page gate limit fid p rest c d k hc hg hp] at h
          simp at h
        | false =>
          cases hr : rest.isEmpty with
          | true =>
            rw [collectPages_last_page gate limit fid p rest c d k hc hg hp hr] at h
            simp at h
          | false =>
            rw [collectPages_next_page gate limit fid p rest c d k hc hg hp hr] at h
            cases hr2 : (collectPages gate limit fid rest
                (c + (p.take (limit - c)).length)
                (d + (p.take (limit - c)).length) (k + 1)).2 with
            | error e₂ =>
              rw [hr2] at h
              simp only [Except.error.injEq] at h
              rw [← h]
              exact ih _ _ _ e₂ hr2
            | ok v =>
              obtain ⟨dd, kk, ids⟩ := v
              rw [hr2] at h
              simp at h

theorem collectFolders_error_msg (env : Env) (gate : Gate) (limit PS : Nat) :
    ∀ (fs : List Folder) (done k : Nat) (e : String),
      (collectFolders env gate limit PS fs done k).2 = Except.error e →
      e = cancelledMsg := by
  intro fs
  induction fs with
  | nil =>
    intro done k e h
    simp [collectFolders] at h
  | cons f fs ih =>
    intro done k e h
    cases hr2 : (collectPages gate limit f.id (chunk PS (env.folderMsgs f.id)) 0 done k).2 with
    | error e₂ =>
      rw [collectFolders_cons_error env gate limit PS f fs done k e₂ hr2] at h
      simp only [Except.error.injEq] at h
      rw [← h]
      exact collectPages_error_msg gate limit f.id _ 0 done k e₂ hr2
    | ok v =>
      obtain ⟨done', k', ids⟩ := v
      rw [collectFolders_cons_ok env gate limit PS f fs done k done' k' ids hr2] at h
      cases hr3 : (collectFolders env gate limit PS fs done' k').2 with
      | error e₃ =>
        rw [hr3] at h
        simp only [Except.error.injEq] at h
        rw [← h]
        exact ih done' k' e₃ hr3
      | ok v₃ =>
        obtain ⟨dd, kk, ids₂⟩ := v₃
        rw [hr3] at h
        simp at h

theorem collectStage_error_msg (env : Env) (gate : Gate) (args : RunIngestArgs)
    (e : String) (h : (collectStage env gate args).2 = Except.error e) :
    e = cancelledMsg := by
  cases hm : args.ingest_mode with
  | EMAILS =>
    rw [collectStage_emails env gate args hm] at h
    simp at h
  | FOLDERS =>
    rw [collectStage_folders env gate args hm] at h
    cases hcf : (collectFolders env gate (effLimit args) (args.page_size.getD 25)
        (chosenFolders args) 0 0).2 with
    | error e₂ =>
      rw [hcf] at h
      simp only [Except.error.injEq] at h
      rw [← h]
      exact collectFolders_error_msg env gate _ _ _ 0 0 e₂ hcf
    | ok v =>
      obtain ⟨dd, kk, ids⟩ := v
      rw [hcf] at h
      simp at h

theorem ingestBatches_error_msg (gate : Gate) (fid : String) :
    ∀ (bs : List (List String)) (ing k : Nat) (e : String),
      (ingestBatches gate fid bs ing k).2 = Except.error e → e = cancelledMsg := by
  intro bs
  induction bs with
  | nil =>
    intro ing k e h
    simp [ingestBatches] at h
  | cons b bs ih =>
    intro ing k e h
    cases hg : gateAborts gate k with
    | true =>
      rw [ingestBatches_abort gate fid b bs ing k hg] at h
      simp only [Except.error.injEq] at h
      exact h.symm
    | false =>
      rw [ingestBatches_pass gate fid b bs ing k hg] at h
      exact ih (ing + b.length) (k + 1) e h

/-! ### The run trace is gated and its check-points are an initial segment -/

theorem run_evs_cases (env : Env) (gate : Gate) (rid rl : String)
    (args : RunIngestArgs) :
    (∃ K, PassSpec gate 0 K (run_ingestion env gate rid rl args).1) ∧
    gatedFrom gate false (run_ingestion env gate rid rl args).1 = true := by
  cases hcs : (collectStage env gate args).2 with
  | error e =>
    rw [run_ingestion_collect_error env gate rid rl args e hcs]
    obtain ⟨K, hps, _⟩ := collectStage_passSpec env gate args
    exact ⟨⟨K, hps⟩, collectStage_gated env gate args⟩
  | ok v =>
    obtain ⟨k, ids⟩ := v
    obtain ⟨K, hps, hok⟩ := collectStage_passSpec env gate args
    have hkK : k = K := hok k ids hcs
    rw [← hkK] at hps
    cases hids : ids.isEmpty with
    | true =>
      rw [run_ingestion_no_items env gate rid rl args k ids hcs hids]
      exact ⟨⟨k, hps⟩, collectStage_gated env gate args⟩
    | false =>
      obtain ⟨K₂, hpsB, hokB⟩ := ingestBatches_passSpec gate (folderIdToSend args)
        (chunk (args.batch_size.getD 5) ids) 0 k
      have hg1 := collectStage_gated env gate args
      have hg2 := ingestBatches_gated gate (folderIdToSend args)
        (chunk (args.batch_size.getD 5) ids) 0 k
      have hS : PassSpec gate k k [Event.phase Phase.STORING] :=
        passSpec_cons_passive gate (fun j h => by cases h) (passSpec_nil gate k)
      have hSg : gatedFrom gate false [Event.phase Phase.STORING] = true := rfl
      cases hb : (ingestBatches gate (folderIdToSend args)
          (chunk (args.batch_size.getD 5) ids) 0 k).2 with
      | error e =>
        rw [run_ingestion_store_error env gate rid rl args k ids e hcs hids hb]
        constructor
        · exact ⟨K₂, passSpec_append gate (passSpec_append gate hps hS) hpsB⟩
        · exact gatedFrom_append gate _ _ false
            (gatedFrom_append gate _ _ false hg1 hSg) hg2
      | ok kk =>
        rw [run_ingestion_success env gate rid rl args k kk ids hcs hids hb]
        have hID : PassSpec gate K₂ K₂
            [Event.phase Phase.INDEXING, Event.phase Phase.DONE] :=
          passSpec_cons_passive gate (fun j h => by cases h)
            (passSpec_cons_passive gate (fun j h => by cases h) (passSpec_nil gate K₂))
        have hIDg : gatedFrom gate false
            [Event.phase Phase.INDEXING, Event.phase Phase.DONE] = true := rfl
        constructor
        · exact ⟨K₂, passSpec_append gate
            (passSpec_append gate (passSpec_append gate hps hS) hpsB) hID⟩
        · exact gatedFrom_append gate _ _ false
            (gatedFrom_append gate _ _ false
              (gatedFrom_append gate _ _ false hg1 hSg) hg2) hIDg

/-- C2: before every remote page fetch and every batch commit,
`run_ingestion` checks the pause/cancel gate (each `pageFetch` and `commit`
event is immediately preceded by a passed, non-aborting check-point), and the
passed check-points form an initial segment of non-aborting ones: once the
gate aborts — a requested pause resolved to `cancel`, or the hard cancel
flag — no later check-point passes, so no further remote fetch and no further
store/index write is initiated. -/
theorem run_ingestion_gate_checked (env : Env) (gate : Gate) (rid rl : String)
    (args : RunIngestArgs) :
    gatedFrom gate false (run_ingestion env gate rid rl args).1 = true ∧
    ∀ j, Event.gatePass j ∈ (run_ingestion env gate rid rl args).1 →
      ∀ i, i ≤ j → gateAborts gate i = false := by
  obtain ⟨⟨K, hps⟩, hg⟩ := run_evs_cases env gate rid rl args
  refine ⟨hg, ?_⟩
  intro j hj i hij
  obtain ⟨_, h2, h3⟩ := hps
  obtain ⟨hKj, hjK⟩ := h3 j hj
  exact h2 i (by omega) (by omega)

/-- An EMAILS-mode run over one selected message id, used as witness input. -/
def argsOneEmail : RunIngestArgs :=
  ⟨IngestMode.EMAILS, "", ["a"], [], [], 0, none, none⟩

theorem run_ingestion_gate_checked_witness :
    gatedFrom gateNone false
      (run_ingestion envEmpty gateNone "r" "l" argsOneEmail).1 = true ∧
    gateAborts gateNone 0 = false :=
  ⟨(run_ingestion_gate_checked envEmpty gateNone "r" "l" argsOneEmail).1,
   (run_ingestion_gate_checked envEmpty gateNone "r" "l" argsOneEmail).2
     0 (by decide) 0 (by decide)⟩

/-- C9: for every array and every batch size ≥ 1, `chunk` yields non-empty
batches of length at most the size whose in-order concatenation is the
original array (so every element lands in exactly one batch), and `chunk`
agrees with the fuelled loop `chunkFuel` given the always-sufficient fuel
`arr.length`; for batch size 0 the loop never terminates — it exhausts every
finite fuel on any non-empty array — so the precondition size ≥ 1 is
necessary. -/
theorem chunk_batches_spec :
    (∀ (arr : List String) (size : Nat), 1 ≤ size →
      (∀ b ∈ chunk size arr, b ≠ [] ∧ b.length ≤ size) ∧
      (chunk size arr).flatten = arr ∧
      chunkFuel size arr.length arr = some (chunk size arr)) ∧
    (∀ arr : List String, arr ≠ [] → ∀ fuel, chunkFuel 0 fuel arr = none) := by
  constructor
  · intro arr size hs
    exact ⟨chunk_mem size hs arr, chunk_join size hs arr,
      chunkFuel_eq_chunk size hs arr.length arr (le_refl _)⟩
  · intro arr h fuel
    cases arr with
    | nil => exact absurd rfl h
    | cons x xs => exact chunkFuel_zero_none x xs fuel

theorem chunk_batches_spec_witness :
    ((∀ b ∈ chunk 2 ["a", "b", "c"], b ≠ [] ∧ b.length ≤ 2) ∧
     (chunk 2 ["a", "b", "c"]).flatten = ["a", "b", "c"] ∧
     chunkFuel 2 3 ["a", "b", "c"] = some (chunk 2 ["a", "b", "c"])) ∧
    chunkFuel 0 7 ["x"] = none :=
  ⟨chunk_batches_spec.1 ["a", "b", "c"] 2 (by decide),
   chunk_batches_spec.2 ["x"] (by decide) 7⟩

/-- C4: a successful run never carries an empty identifier list; when the
run fails with the `NoItemsSelected` message ("No emails selected.") not a
single store/index commit was issued and no stored-count was ever reported —
no partial state; and an EMAILS-mode run over an empty selection does fail
with that message rather than succeed silently. -/
theorem run_ingestion_no_items_spec (env : Env) (gate : Gate) (rid rl : String)
    (args : RunIngestArgs) :
    (∀ r, (run_ingestion env gate rid rl args).2 = Except.ok r →
      r.message_ids ≠ []) ∧
    ((run_ingestion env gate rid rl args).2 = Except.error noItemsMsg →
      commitVals (run_ingestion env gate rid rl args).1 = [] ∧
      ingestVals (run_ingestion env gate rid rl args).1 = []) ∧
    (args.ingest_mode = IngestMode.EMAILS → args.selected_email_ids = [] →
      (run_ingestion env gate rid rl args).2 = Except.error noItemsMsg) := by
  refine ⟨?_, ?_, ?_⟩
  · intro r hr
    cases hcs : (collectStage env gate args).2 with
    | error e =>
      rw [run_ingestion_collect_error env gate rid rl args e hcs] at hr
      simp at hr
    | ok v =>
      obtain ⟨k, ids⟩ := v
      cases hids : ids.isEmpty with
      | true =>
        rw [run_ingestion_no_items env gate rid rl args k ids hcs hids] at hr
        simp at hr
      | false =>
        cases hb : (ingestBatches gate (folderIdToSend args)
            (chunk (args.batch_size.getD 5) ids) 0 k).2 with
        | error e =>
          rw [run_ingestion_store_error env gate rid rl args k ids e hcs hids hb] at hr
          simp at hr
        | ok kk =>
          rw [run_ingestion_success env gate rid rl args k kk ids hcs hids hb] at hr
          simp only [Except.ok.injEq] at hr
          rw [← hr]
          intro hcon
          have hids' : ids = [] := hcon
          rw [hids'] at hids
          cases hids
  · intro herr
    cases hcs : (collectStage env gate args).2 with
    | error e =>
      have he := collectStage_error_msg env gate args e hcs
      rw [run_ingestion_collect_error env gate rid rl args e hcs] at herr
      simp only [Except.error.injEq] at herr
      rw [herr] at he
      exact absurd he (by decide)
    | ok v =>
      obtain ⟨k, ids⟩ := v
      cases hids : ids.isEmpty with
      | true =>
        rw [run_ingestion_no_items env gate rid rl args k ids hcs hids]
        exact ⟨collectStage_no_commit env gate args, collectStage_no_ingest env gate args⟩
      | false =>
        cases hb : (ingestBatches gate (folderIdToSend args)
            (chunk (args.batch_size.getD 5) ids) 0 k).2 with
        | error e =>
          have he := ingestBatches_error_msg gate (folderIdToSend args) _ 0 k e hb
          rw [run_ingestion_store_error env gate rid rl args k ids e hcs hids hb] at herr
          simp only [Except.error.injEq] at herr
          rw [herr] at he
          exact absurd he (by decide)
        | ok kk =>
          rw [run_ingestion_success env gate rid rl args k kk ids hcs hids hb] at herr
          simp at herr
  · intro hm hsel
    have hcs : (collectStage env gate args).2 = Except.ok (0, args.selected_email_ids) := by
      rw [collectStage_emails env gate args hm]
    rw [run_ingestion_no_items env gate rid rl args 0 args.selected_email_ids hcs
      (by rw [hsel]; rfl)]

/-- An EMAILS-mode run over an empty selection, used as witness input. -/
def argsNoSelection : RunIngestArgs :=
  ⟨IngestMode.EMAILS, "", [], [], [], 0, none, none⟩

theorem run_ingestion_no_items_spec_witness :
    (run_ingestion envEmpty gateNone "r" "l" argsNoSelection).2 =
      Except.error noItemsMsg ∧
    commitVals (run_ingestion envEmpty gateNone "r" "l" argsNoSelection).1 = [] := by
  have h := (run_ingestion_no_items_spec envEmpty gateNone "r" "l" argsNoSelection).2.2
    rfl rfl
  exact ⟨h, ((run_ingestion_no_items_spec envEmpty gateNone "r" "l"
    argsNoSelection).2.1 h).1⟩

/-- An EMAILS-mode run whose explicit selection repeats an id. -/
def argsDupEmail : RunIngestArgs :=
  ⟨IngestMode.EMAILS, "", ["a", "a"], [], [], 0, none, none⟩

/-- C1 (counterexample): an EMAILS-mode run over the selection
`["a", "a"]` reaches DONE (all four phases fire) and returns the list
`["a", "a"]`, which has a duplicate — the explicit selection is not
deduplicated, so the claim that both modes deduplicate fails. -/
theorem run_ingestion_emails_dup_counterexample :
    (run_ingestion envEmpty gateNone "rid" "rl" argsDupEmail).2 =
      Except.ok ⟨"rid", "rl", ["a", "a"]⟩ ∧
    phaseVals (run_ingestion envEmpty gateNone "rid" "rl" argsDupEmail).1 =
      [Phase.FETCHING, Phase.STORING, Phase.INDEXING, Phase.DONE] ∧
    ¬ (["a", "a"] : List String).Nodup :=
  ⟨by rfl, by rfl, by decide⟩

/-- C1 (amended): deduplication happens only in FOLDER-SCOPED mode: a
FOLDERS-mode run that completes returns a duplicate-free identifier list
(each id then lands in exactly one batch), while an EMAILS-mode run returns
the selected ids verbatim, duplicates included. -/
theorem run_ingestion_dedup (env : Env) (gate : Gate) (rid rl : String)
    (args : RunIngestArgs) (r : RunIngestResult)
    (hr : (run_ingestion env gate rid rl args).2 = Except.ok r) :
    (args.ingest_mode = IngestMode.FOLDERS → r.message_ids.Nodup) ∧
    (args.ingest_mode = IngestMode.EMAILS →
      r.message_ids = args.selected_email_ids) := by
  cases hcs : (collectStage env gate args).2 with
  | error e =>
    rw [run_ingestion_collect_error env gate rid rl args e hcs] at hr
    simp at hr
  | ok v =>
    obtain ⟨k, ids⟩ := v
    cases hids : ids.isEmpty with
    | true =>
      rw [run_ingestion_no_items env gate rid rl args k ids hcs hids] at hr
      simp at hr
    | false =>
      cases hb : (ingestBatches gate (folderIdToSend args)
          (chunk (args.batch_size.getD 5) ids) 0 k).2 with
      | error e =>
        rw [run_ingestion_store_error env gate rid rl args k ids e hcs hids hb] at hr
        simp at hr
      | ok kk =>
        rw [run_ingestion_success env gate rid rl args k kk ids hcs hids hb] at hr
        simp only [Except.ok.injEq] at hr
        have hmsg : r.message_ids = ids := by rw [← hr]
        constructor
        · intro hm
          rw [collectStage_folders env gate args hm] at hcs
          cases hcf : (collectFolders env gate (effLimit args) (args.page_size.getD 25)
              (chosenFolders args) 0 0).2 with
          | error e2 => rw [hcf] at hcs; simp at hcs
          | ok v2 =>
            obtain ⟨dd, kk2, all⟩ := v2
            rw [hcf] at hcs
            simp only [Except.ok.injEq, Prod.mk.injEq] at hcs
            rw [hmsg, ← hcs.2]
            exact uniq_nodup all
        · intro hm
          rw [collectStage_emails env gate args hm] at hcs
          simp only [Except.ok.injEq, Prod.mk.injEq] at hcs
          rw [hmsg, ← hcs.2]

/-- A FOLDERS-mode run over one folder holding three distinct messages. -/
def envThree : Env := ⟨fun f => if f = "f" then ["x", "y", "z"] else []⟩

/-- A FOLDERS-mode selection of that folder with cap 5. -/
def argsThree : RunIngestArgs :=
  ⟨IngestMode.FOLDERS, "", [], [⟨"f", "F", some 3⟩], ["f"], 5, none, none⟩

theorem run_ingestion_dedup_witness :
    (run_ingestion envThree gateNone "r" "l" argsThree).2 =
      Except.ok ⟨"r", "l", ["x", "y", "z"]⟩ ∧
    (["x", "y", "z"] : List String).Nodup := by
  have h := (run_ingestion_dedup envThree gateNone "r" "l" argsThree
    ⟨"r", "l", ["x", "y", "z"]⟩ (by rfl)).1 rfl
  exact ⟨by rfl, h⟩

/-- C3 (counterexample): cancellation is signalled and detected through
the magic message string: the catch handler of `start_indexing` classifies an
error whose message equals "CANCELLED_BY_USER" as a user cancellation even
when no cancellation was requested (flag `false`), and a gate-aborted run
signals cancellation as a plain error carrying exactly that string. -/
theorem classify_by_string_counterexample :
    classify_as_cancellation "CANCELLED_BY_USER" false = true ∧
    (run_ingestion envEmpty gateCancel "r" "l" argsOneEmail).2 =
      Except.error "CANCELLED_BY_USER" :=
  ⟨rfl, by rfl⟩

/-- C3 (amended): the classification of an error as user cancellation is
exactly string-or-flag: `msg === "CANCELLED_BY_USER" || cancel_requested`; and
every error a run can throw is a bare message string — either the cancellation
magic string or the no-items message — with no dedicated tagged kind, so an
infrastructure failure with the same text would be indistinguishable. -/
theorem classify_as_cancellation_spec :
    (∀ (msg : String) (cr : Bool),
      classify_as_cancellation msg cr = true ↔ msg = cancelledMsg ∨ cr = true) ∧
    (∀ (env : Env) (gate : Gate) (rid rl : String) (args : RunIngestArgs)
      (e : String), (run_ingestion env gate rid rl args).2 = Except.error e →
      e = cancelledMsg ∨ e = noItemsMsg) := by
  constructor
  · intro msg cr
    unfold classify_as_cancellation
    rw [Bool.or_eq_true_iff, decide_eq_true_eq]
  · intro env gate rid rl args e herr
    cases hcs : (collectStage env gate args).2 with
    | error e₂ =>
      rw [run_ingestion_collect_error env gate rid rl args e₂ hcs] at herr
      simp only [Except.error.injEq] at herr
      rw [← herr]
      exact Or.inl (collectStage_error_msg env gate args e₂ hcs)
    | ok v =>
      obtain ⟨k, ids⟩ := v
      cases hids : ids.isEmpty with
      | true =>
        rw [run_ingestion_no_items env gate rid rl args k ids hcs hids] at herr
        simp only [Except.error.injEq] at herr
        exact Or.inr herr.symm
      | false =>
        cases hb : (ingestBatches gate (folderIdToSend args)
            (chunk (args.batch_size.getD 5) ids) 0 k).2 with
        | error e₂ =>
          rw [run_ingestion_store_error env gate rid rl args k ids e₂ hcs hids hb] at herr
          simp only [Except.error.injEq] at herr
          rw [← herr]
          exact Or.inl (ingestBatches_error_msg gate (folderIdToSend args) _ 0 k e₂ hb)
        | ok kk =>
          rw [run_ingestion_success env gate rid rl args k kk ids hcs hids hb] at herr
          simp at herr

theorem classify_as_cancellation_spec_witness :
    (classify_as_cancellation "CANCELLED_BY_USER" false = true ↔
      ("CANCELLED_BY_USER" : String) = cancelledMsg ∨ (false : Bool) = true) ∧
    (("CANCELLED_BY_USER" : String) = cancelledMsg ∨
      ("CANCELLED_BY_USER" : String) = noItemsMsg) :=
  ⟨classify_as_cancellation_spec.1 "CANCELLED_BY_USER" false,
   classify_as_cancellation_spec.2 envEmpty gateCancel "r" "l" argsOneEmail
     "CANCELLED_BY_USER" (by rfl)⟩

/-! ### The reported total -/

theorem collectStage_totalVals_folders (env : Env) (gate : Gate)
    (args : RunIngestArgs) (hm : args.ingest_mode = IngestMode.FOLDERS) :
    totalVals (collectStage env gate args).1 =
      [if approxTotal args = 0 then none else some (approxTotal args)] := by
  rw [collectStage_folders env gate args hm]
  show (if approxTotal args = 0 then none else some (approxTotal args)) ::
    totalVals (collectFolders env gate (effLimit args) (args.page_size.getD 25)
      (chosenFolders args) 0 0).1 = _
  rw [collect_no_total _ (collectFolders_events env gate _ _ _ 0 0)]

theorem run_totalVals (env : Env) (gate : Gate) (rid rl : String)
    (args : RunIngestArgs) :
    totalVals (run_ingestion env gate rid rl args).1 =
      totalVals (collectStage env gate args).1 := by
  cases hcs : (collectStage env gate args).2 with
  | error e => rw [run_ingestion_collect_error env gate rid rl args e hcs]
  | ok v =>
    obtain ⟨k, ids⟩ := v
    cases hids : ids.isEmpty with
    | true => rw [run_ingestion_no_items env gate rid rl args k ids hcs hids]
    | false =>
      have hbt := batch_no_total _ (ingestBatches_events gate (folderIdToSend args)
        (chunk (args.batch_size.getD 5) ids) 0 k)
      have hS : totalVals [Event.phase Phase.STORING] = [] := rfl
      have hID : totalVals [Event.phase Phase.INDEXING, Event.phase Phase.DONE] = [] := rfl
      cases hb : (ingestBatches gate (folderIdToSend args)
          (chunk (args.batch_size.getD 5) ids) 0 k).2 with
      | error e =>
        rw [run_ingestion_store_error env gate rid rl args k ids e hcs hids hb]
        rw [totalVals_append, totalVals_append, hS, hbt, List.append_nil, List.append_nil]
      | ok kk =>
        rw [run_ingestion_success env gate rid rl args k kk ids hcs hids hb]
        rw [totalVals_append, totalVals_append, totalVals_append, hS, hbt, hID,
          List.append_nil, List.append_nil, List.append_nil]

/-- A FOLDERS-mode remote source with one folder holding one message. -/
def envOneMsg : Env := ⟨fun f => if f = "f" then ["m"] else []⟩

/-- A FOLDERS-mode selection of a folder whose reported count is 0, cap 5. -/
def argsZeroCount : RunIngestArgs :=
  ⟨IngestMode.FOLDERS, "", [], [⟨"f", "F", some 0⟩], ["f"], 5, none, none⟩

/-- C6 (counterexample): one selected folder reporting 0 items, cap 5: the
claim's formula gives min(5, 0) = 0, but the run reports `some 5` to
`onTotal` — the falsy reported count falls back to the cap
(`f.totalItemCount || limit`). -/
theorem approx_total_counterexample :
    totalVals (run_ingestion envOneMsg gateNone "r" "l" argsZeroCount).1 =
      [some 5] ∧
    ¬ totalVals (run_ingestion envOneMsg gateNone "r" "l" argsZeroCount).1 =
        [some (min 5 0)] :=
  ⟨by rfl, by decide⟩

theorem totalOrLimit_none (limit : Nat) : totalOrLimit none limit = limit := rfl

theorem totalOrLimit_some (n limit : Nat) :
    totalOrLimit (some n) limit = if n = 0 then limit else n := rfl

theorem totalOrLimit_pos (t : Option Nat) (limit : Nat) (hl : 1 ≤ limit) :
    1 ≤ totalOrLimit t limit := by
  cases t with
  | none => rw [totalOrLimit_none]; exact hl
  | some n =>
    rw [totalOrLimit_some]
    by_cases hn : n = 0
    · rw [if_pos hn]; exact hl
    · rw [if_neg hn]; omega

theorem effLimit_pos (args : RunIngestArgs) : 1 ≤ effLimit args := by
  unfold effLimit
  omega

theorem foldl_totalOrLimit_ge (limit : Nat) :
    ∀ (fs : List Folder) (s : Nat),
      s ≤ fs.foldl (fun s f => s + min limit (totalOrLimit f.totalItemCount limit)) s := by
  intro fs
  induction fs with
  | nil => intro s; exact le_refl s
  | cons f fs ih =>
    intro s
    calc s ≤ s + min limit (totalOrLimit f.totalItemCount limit) := Nat.le_add_right _ _
      _ ≤ _ := ih _

theorem approxTotal_pos (args : RunIngestArgs) (hne : chosenFolders args ≠ []) :
    approxTotal args ≠ 0 := by
  unfold approxTotal
  cases hch : chosenFolders args with
  | nil => exact absurd hch hne
  | cons f fs =>
    simp only [List.foldl_cons]
    have h1 : 1 ≤ totalOrLimit f.totalItemCount (effLimit args) :=
      totalOrLimit_pos _ _ (effLimit_pos args)
    have h2 : 1 ≤ min (effLimit args) (totalOrLimit f.totalItemCount (effLimit args)) := by
      have := effLimit_pos args
      omega
    have h3 := foldl_totalOrLimit_ge (effLimit args) fs
      (0 + min (effLimit args) (totalOrLimit f.totalItemCount (effLimit args)))
    omega

theorem foldl_totalOrLimit_counts (limit : Nat) :
    ∀ (fs : List Folder),
      (∀ f ∈ fs, ∃ n, f.totalItemCount = some n ∧ 0 < n) →
      ∀ s, fs.foldl (fun s f => s + min limit (totalOrLimit f.totalItemCount limit)) s =
        fs.foldl (fun s f => s + min limit (f.totalItemCount.getD 0)) s := by
  intro fs
  induction fs with
  | nil => intro _ s; rfl
  | cons f fs ih =>
    intro h s
    obtain ⟨n, hn, hpos⟩ := h f (List.mem_cons_self f fs)
    simp only [List.foldl_cons, hn]
    have h1 : totalOrLimit (some n) limit = n := by
      rw [totalOrLimit_some, if_neg (by omega)]
    have h2 : (some n).getD 0 = n := rfl
    rw [h1, h2]
    exact ih (fun f' hf' => h f' (List.mem_cons_of_mem f hf')) (s + min limit n)

/-- C6 (amended): in FOLDER-SCOPED mode the run reports to `onTotal`
exactly one value: the sum over the selected folders of
min(cap, `totalItemCount || cap`) — a missing or zero reported count falls
back to the cap — and a zero sum is reported as `null`; in particular, the
spec's formula Σ min(cap, reported count) holds exactly whenever every
selected folder reports a positive item count. -/
theorem run_ingestion_total_spec (env : Env) (gate : Gate) (rid rl : String)
    (args : RunIngestArgs) (hm : args.ingest_mode = IngestMode.FOLDERS) :
    totalVals (run_ingestion env gate rid rl args).1 =
      [if approxTotal args = 0 then none else some (approxTotal args)] ∧
    ((∀ f ∈ chosenFolders args, ∃ n, f.totalItemCount = some n ∧ 0 < n) →
      chosenFolders args ≠ [] →
      totalVals (run_ingestion env gate rid rl args).1 =
        [some ((chosenFolders args).foldl
          (fun s f => s + min (effLimit args) (f.totalItemCount.getD 0)) 0)]) := by
  have hbase : totalVals (run_ingestion env gate rid rl args).1 =
      [if approxTotal args = 0 then none else some (approxTotal args)] := by
    rw [run_totalVals env gate rid rl args]
    exact collectStage_totalVals_folders env gate args hm
  refine ⟨hbase, ?_⟩
  intro hcnt hne
  rw [hbase, if_neg (approxTotal_pos args hne)]
  unfold approxTotal
  rw [foldl_totalOrLimit_counts (effLimit args) (chosenFolders args) hcnt 0]

/-- A FOLDERS-mode selection of two folders with positive reported counts. -/
def argsTwoCounts : RunIngestArgs :=
  ⟨IngestMode.FOLDERS, "", [], [⟨"f", "F", some 3⟩, ⟨"g", "G", some 9⟩],
   ["f", "g"], 5, none, none⟩

theorem run_ingestion_total_spec_witness :
    totalVals (run_ingestion envOneMsg gateNone "r" "l" argsTwoCounts).1 =
      [if approxTotal argsTwoCounts = 0 then none
       else some (approxTotal argsTwoCounts)] ∧
    totalVals (run_ingestion envOneMsg gateNone "r" "l" argsTwoCounts).1 =
      [some ((chosenFolders argsTwoCounts).foldl
        (fun s f => s + min (effLimit argsTwoCounts) (f.totalItemCount.getD 0)) 0)] :=
  ⟨(run_ingestion_total_spec envOneMsg gateNone "r" "l" argsTwoCounts rfl).1,
   (run_ingestion_total_spec envOneMsg gateNone "r" "l" argsTwoCounts rfl).2
     (by decide) (by decide)⟩

/-! ### The collected counter and result in FOLDERS mode -/

theorem collectStage_fetchVals_folders (env : Env) (gate : Gate)
    (args : RunIngestArgs) (hm : args.ingest_mode = IngestMode.FOLDERS) :
    fetchVals (collectStage env gate args).1 =
      fetchVals (collectFolders env gate (effLimit args) (args.page_size.getD 25)
        (chosenFolders args) 0 0).1 := by
  rw [collectStage_folders env gate args hm]
  rfl

theorem run_fetchVals (env : Env) (gate : Gate) (rid rl : String)
    (args : RunIngestArgs) :
    fetchVals (run_ingestion env gate rid rl args).1 =
      fetchVals (collectStage env gate args).1 := by
  cases hcs : (collectStage env gate args).2 with
  | error e => rw [run_ingestion_collect_error env gate rid rl args e hcs]
  | ok v =>
    obtain ⟨k, ids⟩ := v
    cases hids : ids.isEmpty with
    | true => rw [run_ingestion_no_items env gate rid rl args k ids hcs hids]
    | false =>
      have hbt := batch_no_fetch _ (ingestBatches_events gate (folderIdToSend args)
        (chunk (args.batch_size.getD 5) ids) 0 k)
      have hS : fetchVals [Event.phase Phase.STORING] = [] := rfl
      have hID : fetchVals [Event.phase Phase.INDEXING, Event.phase Phase.DONE] = [] := rfl
      cases hb : (ingestBatches gate (folderIdToSend args)
          (chunk (args.batch_size.getD 5) ids) 0 k).2 with
      | error e =>
        rw [run_ingestion_store_error env gate rid rl args k ids e hcs hids hb]
        rw [fetchVals_append, fetchVals_append, hS, hbt, List.append_nil, List.append_nil]
      | ok kk =>
        rw [run_ingestion_success env gate rid rl args k kk ids hcs hids hb]
        rw [fetchVals_append, fetchVals_append, fetchVals_append, hS, hbt, hID,
          List.append_nil, List.append_nil, List.append_nil]

theorem collectStage_folders_ok (env : Env) (gate : Gate) (args : RunIngestArgs)
    (hgate : ∀ k, gateAborts gate k = false)
    (hm : args.ingest_mode = IngestMode.FOLDERS)
    (hPS : 1 ≤ args.page_size.getD 25) :
    ∃ k', (collectStage env gate args).2 =
      Except.ok (k', uniq ((chosenFolders args).map
        (fun f => (env.folderMsgs f.id).take (effLimit args))).flatten) := by
  obtain ⟨k', hcf⟩ := collectFolders_ok env gate (effLimit args)
    (args.page_size.getD 25) hgate hPS (chosenFolders args) 0 0
  refine ⟨k', ?_⟩
  rw [collectStage_folders env gate args hm]
  dsimp only
  rw [hcf]

/-- The identifier list a successful FOLDERS-mode run returns, and the final
collected count it reported, under a never-aborting gate. -/
theorem run_folders_result (env : Env) (gate : Gate) (rid rl : String)
    (args : RunIngestArgs) (hgate : ∀ k, gateAborts gate k = false)
    (hm : args.ingest_mode = IngestMode.FOLDERS)
    (hPS : 1 ≤ args.page_size.getD 25) :
    (fetchVals (run_ingestion env gate rid rl args).1).length =
      ((chosenFolders args).map
        (fun f => min (effLimit args) (env.folderMsgs f.id).length)).sum ∧
    (∀ r, (run_ingestion env gate rid rl args).2 = Except.ok r →
      r.message_ids = uniq ((chosenFolders args).map
        (fun f => (env.folderMsgs f.id).take (effLimit args))).flatten) := by
  obtain ⟨k', hcf⟩ := collectFolders_ok env gate (effLimit args)
    (args.page_size.getD 25) hgate hPS (chosenFolders args) 0 0
  obtain ⟨k'', hcs⟩ := collectStage_folders_ok env gate args hgate hm hPS
  constructor
  · obtain ⟨T, hfv, hokT⟩ := collectFolders_fetchVals env gate (effLimit args)
      (args.page_size.getD 25) (chosenFolders args) 0 0
    obtain ⟨hT1, _⟩ := hokT _ k' _ hcf
    rw [run_fetchVals env gate rid rl args,
      collectStage_fetchVals_folders env gate args hm, hfv, List.length_range']
    omega
  · intro r hr
    cases hids : (uniq ((chosenFolders args).map
        (fun f => (env.folderMsgs f.id).take (effLimit args))).flatten).isEmpty with
    | true =>
      rw [run_ingestion_no_items env gate rid rl args k'' _ hcs hids] at hr
      simp at hr
    | false =>
      obtain ⟨kk, hb⟩ := ingestBatches_ok gate (folderIdToSend args) hgate
        (chunk (args.batch_size.getD 5) (uniq ((chosenFolders args).map
          (fun f => (env.folderMsgs f.id).take (effLimit args))).flatten)) 0 k''
      rw [run_ingestion_success env gate rid rl args k'' kk _ hcs hids hb] at hr
      simp only [Except.ok.injEq] at hr
      rw [← hr]

/-- C7: in FOLDER-SCOPED mode with a never-aborting gate, at most the
per-folder cap is taken from each selected folder: the final collected count
reported via `onFetchDone` is the sum over the selected folders of
min(cap, folder size), and a successful run returns exactly the (deduplicated)
concatenation of each folder's first `cap` messages. -/
theorem run_ingestion_folder_cap (env : Env) (gate : Gate) (rid rl : String)
    (args : RunIngestArgs) (hgate : ∀ k, gateAborts gate k = false)
    (hm : args.ingest_mode = IngestMode.FOLDERS)
    (hPS : 1 ≤ args.page_size.getD 25) :
    (fetchVals (run_ingestion env gate rid rl args).1).length =
      ((chosenFolders args).map
        (fun f => min (effLimit args) (env.folderMsgs f.id).length)).sum ∧
    (∀ r, (run_ingestion env gate rid rl args).2 = Except.ok r →
      r.message_ids = uniq ((chosenFolders args).map
        (fun f => (env.folderMsgs f.id).take (effLimit args))).flatten) :=
  run_folders_result env gate rid rl args hgate hm hPS

/-- The scenario of the claim: two folders with 30 and 80 messages, cap 50,
page size 25. -/
def envCapDemo : Env :=
  ⟨fun f =>
    if f = "f1" then (List.range 30).map (fun i => "a" ++ toString i)
    else if f = "f2" then (List.range 80).map (fun i => "b" ++ toString i)
    else []⟩

def argsCapDemo : RunIngestArgs :=
  ⟨IngestMode.FOLDERS, "", [], [⟨"f1", "A", some 30⟩, ⟨"f2", "B", some 80⟩],
   ["f1", "f2"], 50, some 5, some 25⟩

theorem run_ingestion_folder_cap_witness :
    (fetchVals (run_ingestion envCapDemo gateNone "r" "l" argsCapDemo).1).length =
      ((chosenFolders argsCapDemo).map
        (fun f => min (effLimit argsCapDemo) (envCapDemo.folderMsgs f.id).length)).sum ∧
    ((chosenFolders argsCapDemo).map
      (fun f => min (effLimit argsCapDemo) (envCapDemo.folderMsgs f.id).length)).sum = 80 :=
  ⟨(run_ingestion_folder_cap envCapDemo gateNone "r" "l" argsCapDemo
     (fun _ => rfl) rfl (by decide)).1,
   by decide⟩

/-- C10: for a non-positive caller-supplied `folder_limit`, the effective
per-folder cap is clamped to 1 (`Math.max(1, folder_limit)`), the collected
count is Σ min(1, folder size), and every non-empty selected folder still
contributes a message to a successful run's identifier list. -/
theorem run_ingestion_limit_clamp (env : Env) (gate : Gate) (rid rl : String)
    (args : RunIngestArgs) (hgate : ∀ k, gateAborts gate k = false)
    (hm : args.ingest_mode = IngestMode.FOLDERS)
    (hPS : 1 ≤ args.page_size.getD 25) (hfl : args.folder_limit ≤ 0) :
    effLimit args = 1 ∧
    (fetchVals (run_ingestion env gate rid rl args).1).length =
      ((chosenFolders args).map
        (fun f => min 1 (env.folderMsgs f.id).length)).sum ∧
    (∀ f ∈ chosenFolders args, env.folderMsgs f.id ≠ [] →
      ∀ r, (run_ingestion env gate rid rl args).2 = Except.ok r →
        ∃ m ∈ env.folderMsgs f.id, m ∈ r.message_ids) := by
  have h1 : effLimit args = 1 := by
    unfold effLimit
    omega
  obtain ⟨hcount, hres⟩ := run_folders_result env gate rid rl args hgate hm hPS
  refine ⟨h1, ?_, ?_⟩
  · rw [hcount, h1]
  · intro f hf hne r hr
    have hmsg := hres r hr
    cases hmf : env.folderMsgs f.id with
    | nil => exact absurd hmf hne
    | cons m ms =>
      refine ⟨m, List.mem_cons_self m ms, ?_⟩
      rw [hmsg, mem_uniq]
      apply List.mem_flatten.mpr
      refine ⟨(env.folderMsgs f.id).take (effLimit args), List.mem_map_of_mem _ hf, ?_⟩
      rw [hmf, h1]
      exact List.mem_cons_self m _

/-- A FOLDERS-mode selection with `folder_limit = 0` over a one-message
folder. -/
def argsZeroLimit : RunIngestArgs :=
  ⟨IngestMode.FOLDERS, "", [], [⟨"f", "F", some 1⟩], ["f"], 0, none, none⟩

theorem run_ingestion_limit_clamp_witness :
    effLimit argsZeroLimit = 1 ∧
    ∃ m ∈ envOneMsg.folderMsgs "f",
      m ∈ RunIngestResult.message_ids ⟨"r", "l", ["m"]⟩ :=
  ⟨(run_ingestion_limit_clamp envOneMsg gateNone "r" "l" argsZeroLimit
     (fun _ => rfl) rfl (by decide) (by decide)).1,
   (run_ingestion_limit_clamp envOneMsg gateNone "r" "l" argsZeroLimit
     (fun _ => rfl) rfl (by decide) (by decide)).2.2
     ⟨"f", "F", some 1⟩ (by decide) (by decide) ⟨"r", "l", ["m"]⟩ (by rfl)⟩

/-! ### Phase order -/

/-- C8: a successful run reports the phases in the strict order
FETCHING (the COLLECTING phase) → STORING → INDEXING → DONE, each exactly
once; the trace ends with the INDEXING milestone immediately followed by
DONE — nothing, in particular no store/index call, happens in between — and
the store/index calls of the whole run are exactly the batch commits of the
final identifier list. -/
theorem run_ingestion_phase_order (env : Env) (gate : Gate) (rid rl : String)
    (args : RunIngestArgs) (r : RunIngestResult)
    (hr : (run_ingestion env gate rid rl args).2 = Except.ok r) :
    phaseVals (run_ingestion env gate rid rl args).1 =
      [Phase.FETCHING, Phase.STORING, Phase.INDEXING, Phase.DONE] ∧
    (∃ p, (run_ingestion env gate rid rl args).1 =
      p ++ [Event.phase Phase.INDEXING, Event.phase Phase.DONE]) ∧
    commitVals (run_ingestion env gate rid rl args).1 =
      chunk (args.batch_size.getD 5) r.message_ids := by
  cases hcs : (collectStage env gate args).2 with
  | error e =>
    rw [run_ingestion_collect_error env gate rid rl args e hcs] at hr
    simp at hr
  | ok v =>
    obtain ⟨k, ids⟩ := v
    cases hids : ids.isEmpty with
    | true =>
      rw [run_ingestion_no_items env gate rid rl args k ids hcs hids] at hr
      simp at hr
    | false =>
      cases hb : (ingestBatches gate (folderIdToSend args)
          (chunk (args.batch_size.getD 5) ids) 0 k).2 with
      | error e =>
        rw [run_ingestion_store_error env gate rid rl args k ids e hcs hids hb] at hr
        simp at hr
      | ok kk =>
        have heq := run_ingestion_success env gate rid rl args k kk ids hcs hids hb
        rw [heq] at hr
        simp only [Except.ok.injEq] at hr
        have hmsg : r.message_ids = ids := by rw [← hr]
        obtain ⟨m, hm, hiv, hcv, hok⟩ := ingestBatches_vals gate (folderIdToSend args)
          (chunk (args.batch_size.getD 5) ids) 0 k
        have hmfull : m = (chunk (args.batch_size.getD 5) ids).length := hok kk hb
        have hS : phaseVals [Event.phase Phase.STORING] = [Phase.STORING] := rfl
        have hID : phaseVals [Event.phase Phase.INDEXING, Event.phase Phase.DONE] =
          [Phase.INDEXING, Phase.DONE] := rfl
        have hcS : commitVals [Event.phase Phase.STORING] = [] := rfl
        have hcID : commitVals [Event.phase Phase.INDEXING, Event.phase Phase.DONE] =
          [] := rfl
        have hbp := batch_no_phase _ (ingestBatches_events gate (folderIdToSend args)
          (chunk (args.batch_size.getD 5) ids) 0 k)
        refine ⟨?_, ⟨(collectStage env gate args).1 ++ [Event.phase Phase.STORING] ++
          (ingestBatches gate (folderIdToSend args)
            (chunk (args.batch_size.getD 5) ids) 0 k).1, by rw [heq]⟩, ?_⟩
        · rw [heq]
          rw [phaseVals_append, phaseVals_append, phaseVals_append,
            collectStage_phaseVals env gate args, hS, hID, hbp]
          rfl
        · rw [heq]
          rw [commitVals_append, commitVals_append, commitVals_append,
            collectStage_no_commit env gate args, hcS, hcID, hcv,
            hmfull, List.take_length, hmsg]
          simp

theorem run_ingestion_phase_order_witness :
    phaseVals (run_ingestion envEmpty gateNone "r" "l" argsOneEmail).1 =
      [Phase.FETCHING, Phase.STORING, Phase.INDEXING, Phase.DONE] ∧
    commitVals (run_ingestion envEmpty gateNone "r" "l" argsOneEmail).1 =
      chunk (argsOneEmail.batch_size.getD 5)
        (RunIngestResult.message_ids ⟨"r", "l", ["a"]⟩) := by
  have h := run_ingestion_phase_order envEmpty gateNone "r" "l" argsOneEmail
    ⟨"r", "l", ["a"]⟩ (by rfl)
  exact ⟨h.1, h.2.2⟩

/-! ### Progress monotonicity -/

theorem chain'_le_range' : ∀ (n s : Nat), List.Chain' (· ≤ ·) (List.range' s n) := by
  intro n
  induction n with
  | zero => intro s; exact List.chain'_nil
  | succ m ih =>
    intro s
    rw [List.range'_succ]
    cases m with
    | zero => simp
    | succ m₂ =>
      rw [List.range'_succ]
      refine List.Chain'.cons (by omega) ?_
      rw [← List.range'_succ]
      exact ih (s + 1)

theorem foldr_max_range' : ∀ (n s : Nat),
    (List.range' s n).foldr max 0 = if n = 0 then 0 else s + n - 1 := by
  intro n
  induction n with
  | zero => intro s; rfl
  | succ m ih =>
    intro s
    rw [List.range'_succ]
    simp only [List.foldr_cons]
    rw [ih (s + 1)]
    by_cases hm : m = 0
    · subst hm
      simp
    · rw [if_neg hm, if_neg (by omega)]
      omega

theorem sum_take_le (l : List Nat) (m : Nat) : (l.take m).sum ≤ l.sum := by
  conv_rhs => rw [← List.take_append_drop m l]
  rw [List.sum_append]
  omega

theorem collectStage_folders_inv (env : Env) (gate : Gate) (args : RunIngestArgs)
    (hm : args.ingest_mode = IngestMode.FOLDERS) (k : Nat) (ids : List String)
    (hcs : (collectStage env gate args).2 = Except.ok (k, ids)) :
    ∃ dd all, (collectFolders env gate (effLimit args) (args.page_size.getD 25)
      (chosenFolders args) 0 0).2 = Except.ok (dd, k, all) ∧ ids = uniq all := by
  rw [collectStage_folders env gate args hm] at hcs
  cases hcf : (collectFolders env gate (effLimit args) (args.page_size.getD 25)
      (chosenFolders args) 0 0).2 with
  | error e => rw [hcf] at hcs; simp at hcs
  | ok v =>
    obtain ⟨dd, kk, all⟩ := v
    rw [hcf] at hcs
    simp only [Except.ok.injEq, Prod.mk.injEq] at hcs
    obtain ⟨h1, h2⟩ := hcs
    subst h1
    exact ⟨dd, all, rfl, h2.symm⟩

theorem run_ingestVals (env : Env) (gate : Gate) (rid rl : String)
    (args : RunIngestArgs) :
    ingestVals (run_ingestion env gate rid rl args).1 = [] ∨
    ∃ k ids, (collectStage env gate args).2 = Except.ok (k, ids) ∧
      ids.isEmpty = false ∧
      ingestVals (run_ingestion env gate rid rl args).1 =
        ingestVals (ingestBatches gate (folderIdToSend args)
          (chunk (args.batch_size.getD 5) ids) 0 k).1 := by
  cases hcs : (collectStage env gate args).2 with
  | error e =>
    rw [run_ingestion_collect_error env gate rid rl args e hcs]
    exact Or.inl (collectStage_no_ingest env gate args)
  | ok v =>
    obtain ⟨k, ids⟩ := v
    cases hids : ids.isEmpty with
    | true =>
      rw [run_ingestion_no_items env gate rid rl args k ids hcs hids]
      exact Or.inl (collectStage_no_ingest env gate args)
    | false =>
      have hiS : ingestVals [Event.phase Phase.STORING] = [] := rfl
      have hiID : ingestVals [Event.phase Phase.INDEXING, Event.phase Phase.DONE] =
        [] := rfl
      cases hb : (ingestBatches gate (folderIdToSend args)
          (chunk (args.batch_size.getD 5) ids) 0 k).2 with
      | error e =>
        rw [run_ingestion_store_error env gate rid rl args k ids e hcs hids hb]
        refine Or.inr ⟨k, ids, rfl, hids, ?_⟩
        rw [ingestVals_append, ingestVals_append,
          collectStage_no_ingest env gate args, hiS]
        simp
      | ok kk =>
        rw [run_ingestion_success env gate rid rl args k kk ids hcs hids hb]
        refine Or.inr ⟨k, ids, rfl, hids, ?_⟩
        rw [ingestVals_append, ingestVals_append, ingestVals_append,
          collectStage_no_ingest env gate args, hiS, hiID]
        simp

/-- C5: within one run the collected counts reported via `onFetchDone` and
the stored counts reported via `onIngestDone` are each non-decreasing; with a
positive batch size, every reported stored count is bounded by the largest
reported collected count, and on success the stored counts are exactly the
partial sums of the batch sizes — after the k-th commit the stored count is
the total size of the first k batches. -/
theorem run_ingestion_progress (env : Env) (gate : Gate) (rid rl : String)
    (args : RunIngestArgs) :
    List.Chain' (· ≤ ·) (fetchVals (run_ingestion env gate rid rl args).1) ∧
    List.Chain' (· ≤ ·) (ingestVals (run_ingestion env gate rid rl args).1) ∧
    (1 ≤ args.batch_size.getD 5 →
      (∀ n ∈ ingestVals (run_ingestion env gate rid rl args).1,
        n ≤ (fetchVals (run_ingestion env gate rid rl args).1).foldr max 0) ∧
      ∀ r, (run_ingestion env gate rid rl args).2 = Except.ok r →
        ingestVals (run_ingestion env gate rid rl args).1 =
          partialSums 0 (chunk (args.batch_size.getD 5) r.message_ids)) := by
  have hingest_eq := run_ingestVals env gate rid rl args
  have hfetch : List.Chain' (· ≤ ·) (fetchVals (run_ingestion env gate rid rl args).1) := by
    rw [run_fetchVals env gate rid rl args]
    cases hm : args.ingest_mode with
    | EMAILS =>
      rw [collectStage_emails env gate args hm]
      exact List.chain'_singleton _
    | FOLDERS =>
      rw [collectStage_fetchVals_folders env gate args hm]
      obtain ⟨T, hfv, _⟩ := collectFolders_fetchVals env gate (effLimit args)
        (args.page_size.getD 25) (chosenFolders args) 0 0
      rw [hfv]
      exact chain'_le_range' T 1
  have hingest : List.Chain' (· ≤ ·) (ingestVals (run_ingestion env gate rid rl args).1) := by
    rcases hingest_eq with h | ⟨k, ids, hcs, hids, heq⟩
    · rw [h]
      exact List.chain'_nil
    · rw [heq]
      obtain ⟨m, _, hiv, _, _⟩ := ingestBatches_vals gate (folderIdToSend args)
        (chunk (args.batch_size.getD 5) ids) 0 k
      rw [hiv]
      exact partialSums_chain 0 _
  refine ⟨hfetch, hingest, ?_⟩
  intro hBS
  constructor
  · rcases hingest_eq with h | ⟨k, ids, hcs, hids, heq⟩
    · rw [h]
      intro n hn
      cases hn
    · intro n hn
      rw [heq] at hn
      obtain ⟨m, hm, hiv, _, _⟩ := ingestBatches_vals gate (folderIdToSend args)
        (chunk (args.batch_size.getD 5) ids) 0 k
      rw [hiv] at hn
      have h1 := partialSums_le 0 _ n hn
      have h2 : (((chunk (args.batch_size.getD 5) ids).take m).map List.length).sum ≤
          ((chunk (args.batch_size.getD 5) ids).map List.length).sum := by
        rw [List.map_take]
        exact sum_take_le _ m
      have h3 : ((chunk (args.batch_size.getD 5) ids).map List.length).sum =
          ids.length := by
        rw [← List.length_flatten, chunk_join (args.batch_size.getD 5) hBS ids]
      have hbound : ids.length ≤
          (fetchVals (run_ingestion env gate rid rl args).1).foldr max 0 := by
        rw [run_fetchVals env gate rid rl args]
        cases hm2 : args.ingest_mode with
        | EMAILS =>
          rw [collectStage_emails env gate args hm2] at hcs ⊢
          simp only [Except.ok.injEq, Prod.mk.injEq] at hcs
          show ids.length ≤ [args.selected_email_ids.length].foldr max 0
          rw [← hcs.2]
          simp
        | FOLDERS =>
          obtain ⟨dd, all, hcf, hiduniq⟩ :=
            collectStage_folders_inv env gate args hm2 k ids hcs
          obtain ⟨T, hfv, hokT⟩ := collectFolders_fetchVals env gate (effLimit args)
            (args.page_size.getD 25) (chosenFolders args) 0 0
          obtain ⟨hdd, hlen⟩ := hokT dd k all hcf
          rw [collectStage_fetchVals_folders env gate args hm2, hfv, foldr_max_range']
          have hle : ids.length ≤ T := by
            rw [hiduniq, ← hlen]
            exact uniq_length_le all
          by_cases hT : T = 0
          · rw [if_pos hT]
            omega
          · rw [if_neg hT]
            omega
      omega
  · intro r hr
    cases hcs : (collectStage env gate args).2 with
    | error e =>
      rw [run_ingestion_collect_error env gate rid rl args e hcs] at hr
      simp at hr
    | ok v =>
      obtain ⟨k, ids⟩ := v
      cases hids : ids.isEmpty with
      | true =>
        rw [run_ingestion_no_items env gate rid rl args k ids hcs hids] at hr
        simp at hr
      | false =>
        cases hb : (ingestBatches gate (folderIdToSend args)
            (chunk (args.batch_size.getD 5) ids) 0 k).2 with
        | error e =>
          rw [run_ingestion_store_error env gate rid rl args k ids e hcs hids hb] at hr
          simp at hr
        | ok kk =>
          have heq := run_ingestion_success env gate rid rl args k kk ids hcs hids hb
          rw [heq] at hr
          simp only [Except.ok.injEq] at hr
          have hmsg : r.message_ids = ids := by rw [← hr]
          obtain ⟨m, hm, hiv, _, hok⟩ := ingestBatches_vals gate (folderIdToSend args)
            (chunk (args.batch_size.getD 5) ids) 0 k
          have hmfull := hok kk hb
          have hiS : ingestVals [Event.phase Phase.STORING] = [] := rfl
          have hiID : ingestVals [Event.phase Phase.INDEXING, Event.phase Phase.DONE] =
            [] := rfl
          rw [heq, ingestVals_append, ingestVals_append, ingestVals_append,
            collectStage_no_ingest env gate args, hiS, hiID, hiv, hmfull,
            List.take_length, hmsg]
          simp

theorem run_ingestion_progress_witness :
    List.Chain' (· ≤ ·)
      (ingestVals (run_ingestion envEmpty gateNone "r" "l" argsOneEmail).1) ∧
    (1 : Nat) ≤
      (fetchVals (run_ingestion envEmpty gateNone "r" "l" argsOneEmail).1).foldr max 0 ∧
    ingestVals (run_ingestion envEmpty gateNone "r" "l" argsOneEmail).1 =
      partialSums 0 (chunk (argsOneEmail.batch_size.getD 5)
        (RunIngestResult.message_ids ⟨"r", "l", ["a"]⟩)) :=
  ⟨(run_ingestion_progress envEmpty gateNone "r" "l" argsOneEmail).2.1,
   ((run_ingestion_progress envEmpty gateNone "r" "l" argsOneEmail).2.2 (by decide)).1
     1 (by decide),
   ((run_ingestion_progress envEmpty gateNone "r" "l" argsOneEmail).2.2 (by decide)).2
     ⟨"r", "l", ["a"]⟩ (by rfl)⟩

end Outlook
